import Mathlib

/-!
# A verification model of the ElectrumX block processor

This file embeds `electrumx/server/block_processor.py` (the block
prefetcher / chain processor) into Lean 4. Bytes are modelled as
`List Nat`, the ordered key/value store as a key-sorted association
list, fallible code as `Except Err`, and the external collaborators
(coin decoder, daemon, filesystem archive, history sub-index) as
explicit model structures following the specification's interface
descriptions. Wall-clock time is frozen: the state carries a constant
`now`, so time deltas are well defined but never advance.

Python-specific behaviours are preserved: truthiness tests on byte
strings (`if cache_value:`), dict insertion order, the precedence of
`assert x == y if c else 0`, and exceptions (`ChainError`, failed
`assert`, `IndexError`) modelled as `Except` errors.
-/

namespace ElectrumX

/-! ## Byte-string helpers -/

/-- Little-endian 2-byte encoding, `struct.pack` with a u16 format. -/
def le16 (n : Nat) : List Nat := [n % 256, n / 256 % 256]

/-- Little-endian 4-byte encoding, `struct.pack` with a u32 format. -/
def le32 (n : Nat) : List Nat :=
  [n % 256, n / 256 % 256, n / 65536 % 256, n / 16777216 % 256]

/-- Little-endian 8-byte encoding, `struct.pack` with a u64 format. -/
def le64 (n : Nat) : List Nat :=
  le32 (n % 4294967296) ++ le32 (n / 4294967296)

/-- Little-endian decoding, `struct.unpack`. -/
def leToNat : List Nat → Nat
  | [] => 0
  | b :: bs => b + 256 * leToNat bs

/-- Concatenation of a list of byte strings, Python `b''.join`. -/
def joinBytes (l : List (List Nat)) : List Nat := l.foldr (· ++ ·) []

/-- Strict lexicographic order on byte strings (Python `bytes` comparison). -/
def bytesLt : List Nat → List Nat → Bool
  | _, [] => false
  | [], _ :: _ => true
  | a :: as_, b :: bs => if a < b then true else if b < a then false else bytesLt as_ bs

/-- Does `p` start `k`? Used for the KV store's prefix iterator. -/
def bytesStart : List Nat → List Nat → Bool
  | [], _ => true
  | _ :: _, [] => false
  | a :: as_, b :: bs => a = b && bytesStart as_ bs

/-- Insert into a lexicographically sorted list of byte strings. -/
def insSorted (x : List Nat) : List (List Nat) → List (List Nat)
  | [] => [x]
  | y :: ys => if bytesLt x y then x :: y :: ys else y :: insSorted x ys

/-- Sort byte strings ascending (Python `sorted`). -/
def sortBytes (l : List (List Nat)) : List (List Nat) := l.foldr insSorted []

/-! ## The ordered key/value store

Modelled from the spec: a generic embedded KV engine with atomic write
batches, point `get` and prefix iteration, keys compared
lexicographically. Represented as an association list kept sorted by
key, so iteration order matches the engine's key order. -/

abbrev KV := List (List Nat × List Nat)

/-- Point lookup. -/
def kvGet (db : KV) (k : List Nat) : Option (List Nat) :=
  (db.find? (fun e => e.1 = k)).map (·.2)

/-- Insert or replace, keeping the entry list sorted by key. -/
def kvPut (db : KV) (k v : List Nat) : KV :=
  match db with
  | [] => [(k, v)]
  | (k', v') :: rest =>
    if k = k' then (k, v) :: rest
    else if bytesLt k k' then (k, v) :: (k', v') :: rest
    else (k', v') :: kvPut rest k v

/-- Delete a key if present. -/
def kvDel (db : KV) (k : List Nat) : KV := db.filter (fun e => ¬ e.1 = k)

/-- All entries whose key starts with `p`, in key order (the store's
prefix iterator). -/
def kvIterPre (db : KV) (p : List Nat) : List (List Nat × List Nat) :=
  db.filter (fun e => bytesStart p e.1)

/-! ## Python dicts as insertion-ordered association lists -/

/-- `d[k] = v`: replace in place if the key exists, else append. -/
def assocPut (m : List (List Nat × List Nat)) (k v : List Nat) :
    List (List Nat × List Nat) :=
  if (m.find? (fun e => e.1 = k)).isSome then
    m.map (fun e => if e.1 = k then (k, v) else e)
  else m ++ [(k, v)]

/-- `d.pop(k, None)`: the removed value (if any) and the remaining dict. -/
def assocPop (m : List (List Nat × List Nat)) (k : List Nat) :
    Option (List Nat) × List (List Nat × List Nat) :=
  match m.find? (fun e => e.1 = k) with
  | some e => (some e.2, m.filter (fun e' => ¬ e'.1 = k))
  | none => (none, m)

/-- Add to a Python `set` modelled as a duplicate-free list. -/
def setAdd (l : List (List Nat)) (x : List Nat) : List (List Nat) :=
  if x ∈ l then l else l ++ [x]

/-- `set.update` with a list of new elements. -/
def setUnion (l : List (List Nat)) (xs : List (List Nat)) : List (List Nat) :=
  xs.foldl setAdd l

/-! ## Data model: parsed blocks and the external coin decoder -/

structure TxIn where
  prevHash : List Nat
  prevIdx : Nat
  deriving DecidableEq

structure TxOut where
  pkScript : List Nat
  value : Nat
  deriving DecidableEq

structure Tx where
  isCoinbase : Bool
  inputs : List TxIn
  outputs : List TxOut
  deriving DecidableEq

/-- A parsed block: header bytes, transactions paired with their
32-byte hashes, and the raw block bytes. -/
structure Block where
  header : List Nat
  transactions : List (Tx × List Nat)
  raw : List Nat
  deriving DecidableEq

/-- Modelled from the spec: the external `Coin` decoder capability set
(`block`, `header_hash`, `header_prevhash`, `hashX_from_script`). -/
structure Coin where
  block : List Nat → Nat → Block
  headerHash : List Nat → List Nat
  headerPrevhash : List Nat → List Nat
  hashXFromScript : List Nat → Option (List Nat)

/-- Modelled from the spec: the environment of external collaborators —
the coin decoder, the filesystem archive's `fs_tx_hash` (ordinal to
full transaction hash and height), the daemon's cached height, the
reorg limit and cache budget from the configuration, the genesis hash,
and the local/daemon header chains used by the fork-point search
(`fs_block_hashes` / `block_hex_hashes`; hex encoding is elided as it
is injective, so hash comparisons are unaffected). -/
structure Env where
  coin : Coin
  fsTxHash : Nat → Option (List Nat) × Nat
  daemonCachedHeight : Nat
  reorgLimit : Nat
  cacheMB : Nat
  genesisHash : List Nat
  localChain : Int → List Nat
  daemonChain : Int → List Nat

/-- Modelled from the spec: the external history sub-index. We track
only what the block processor observes: the unflushed memory size and
the flush counter. -/
structure HistState where
  unflushedSize : Nat
  flushCount : Nat
  deriving DecidableEq

/-- `history.add_unflushed(hashXs_by_tx, first_tx_num)`: grows the
unflushed footprint (modelled as one unit per recorded fingerprint). -/
def histAddUnflushed (h : HistState) (hashXsByTx : List (List (List Nat))) : HistState :=
  { h with unflushedSize := h.unflushedSize + (hashXsByTx.map List.length).sum }

/-- `history.flush()`: returns the touched-address count and clears the
unflushed data, bumping the flush counter. -/
def histFlush (h : HistState) : Nat × HistState :=
  (h.unflushedSize, { unflushedSize := 0, flushCount := h.flushCount + 1 })

/-- `history.backup(touched, tx_count)`: removes history entries above
the backup height; bumps the flush counter. -/
def histBackup (h : HistState) : HistState :=
  { h with flushCount := h.flushCount + 1 }

/-! ## Errors and the block-processor state -/

/-- Failure modes: `ChainError` raised by the processor, a failed
Python `assert`, and `IndexError` from indexing an empty list. -/
inductive Err where
  | chain
  | assertion
  | index
  deriving DecidableEq

deriving instance DecidableEq for Except

/-- A Python `assert cond`. -/
def chk (p : Prop) [Decidable p] : Except Err Unit :=
  if p then .ok () else .error .assertion

/-- The mutable state of `BlockProcessor` (which subclasses `DB`): the
in-memory chain state, its `fs_*` and `db_*` shadow copies, the
unflushed caches, the UTXO store, the filesystem archive (flushed
headers / tx hashes and the raw-block archive, modelled from the
spec), the history sub-index model, and the frozen wall clock. -/
structure St where
  height : Nat
  tip : List Nat
  tx_count : Nat
  fs_height : Nat
  fs_tx_count : Nat
  db_height : Nat
  db_tx_count : Nat
  db_tip : List Nat
  tx_counts : List Nat
  headers : List (List Nat)
  tx_hashes : List (List Nat)
  undo_infos : List (List (List Nat) × Nat)
  utxo_cache : List (List Nat × List Nat)
  db_deletes : List (List Nat)
  utxo_db : KV
  touched : List (List Nat)
  wall_time : Nat
  last_flush : Nat
  last_flush_tx_count : Nat
  utxo_flush_count : Nat
  history : HistState
  fs_headers : List (List Nat)
  fs_tx_hashes : List (List Nat)
  raw_blocks : List (Nat × List Nat)
  caught_up : Bool
  now : Nat
  next_cache_check : Nat
  deriving DecidableEq

/-- Modelled from the spec: the undo-record key for a height (a
distinguished table, disjoint from the `h` and `u` tables). -/
def undoKey (h : Nat) : List Nat := 85 :: le32 h

/-- Modelled from the spec: `read_undo_info(height)` reads the
serialized undo record from the store. -/
def read_undo_info (s : St) (h : Nat) : Option (List Nat) :=
  kvGet s.utxo_db (undoKey h)

/-- Modelled from the spec: `write_raw_block(raw, height)` appends to
the on-disk raw-block archive. -/
def write_raw_block (l : List (Nat × List Nat)) (h : Nat) (raw : List Nat) :
    List (Nat × List Nat) :=
  if (l.find? (fun e => e.1 = h)).isSome then
    l.map (fun e => if e.1 = h then (h, raw) else e)
  else l ++ [(h, raw)]

/-- Modelled from the spec: `read_raw_block(height)` from the archive;
`none` models the read raising. -/
def read_raw_block (l : List (Nat × List Nat)) (h : Nat) : Option (List Nat) :=
  (l.find? (fun e => e.1 = h)).map (·.2)

/-- Modelled from the spec: the persisted chain-state keys (`height`,
`tip`, `tx_count`, `wall_time`, `genesis_hash`, `utxo_flush_count`)
written as one record under a dedicated key; the encoding is
injective. -/
def stateKey : List Nat := [115, 116, 97, 116, 101]

def encodeState (env : Env) (s : St) : List Nat :=
  [s.height, s.tx_count, s.wall_time, s.utxo_flush_count] ++ s.tip ++ env.genesisHash

/-- Modelled from the spec: `write_utxo_state(batch)`. -/
def write_utxo_state (env : Env) (s : St) : St :=
  { s with utxo_db := kvPut s.utxo_db stateKey (encodeState env s) }

/-- Modelled from the spec: `min_undo_height` — undo information is kept
only for heights within `reorg_limit` of the daemon tip. -/
def min_undo_height (env : Env) : Int :=
  (env.daemonCachedHeight : Int) - (env.reorgLimit : Int)

/-! ## `spend_utxo` -/

/-- The `u`-table read attempted for one `h`-table candidate: on a
present, non-empty value it yields the keys to delete and the 23-byte
result `hashX ‖ tx_num ‖ value`. -/
def spendTryU (db : KV) (hdbKey hashX txNumPacked : List Nat) :
    Option (List Nat × List Nat × List Nat) :=
  let udbKey := 117 :: (hashX ++ hdbKey.drop (hdbKey.length - 6))
  match kvGet db udbKey with
  | some uv => if uv ≠ [] then some (hdbKey, udbKey, hashX ++ txNumPacked ++ uv) else none
  | none => none

/-- The candidate loop of `spend_utxo`: `ncand` is the size of the
candidate dict (the full-hash check is only performed when it exceeds
one); a candidate whose `fs_tx_hash` comes back `None` hits the
`assert hash is not None`. -/
def spendLoop (env : Env) (txHash : List Nat) (ncand : Nat) (db : KV) :
    List (List Nat × List Nat) → Except Err (Option (List Nat × List Nat × List Nat))
  | [] => .ok none
  | (hdbKey, hashX) :: rest =>
    let txNumPacked := hdbKey.drop (hdbKey.length - 4)
    if 1 < ncand then
      match (env.fsTxHash (leToNat txNumPacked)).1 with
      | none => .error .assertion
      | some h =>
        if h = txHash then
          match spendTryU db hdbKey hashX txNumPacked with
          | some r => .ok (some r)
          | none => spendLoop env txHash ncand db rest
        else spendLoop env txHash ncand db rest
    else
      match spendTryU db hdbKey hashX txNumPacked with
      | some r => .ok (some r)
      | none => spendLoop env txHash ncand db rest

/-- The on-disk path of `spend_utxo`: prefix-scan the `h` table under
`'h' ‖ tx_hash[0..4] ‖ idx_u16_le`, run the candidate loop, and on
success append both keys to `db_deletes`. -/
def spendFromDB (env : Env) (s : St) (txHash idxPacked : List Nat) :
    Except Err (List Nat × St) :=
  let pre := 104 :: (txHash.take 4 ++ idxPacked)
  let candidates := kvIterPre s.utxo_db pre
  match spendLoop env txHash candidates.length s.utxo_db candidates with
  | .error e => .error e
  | .ok none => .error .chain
  | .ok (some (hk, uk, val)) =>
    .ok (val, { s with db_deletes := s.db_deletes ++ [hk, uk] })

/-- `spend_utxo(tx_hash, tx_idx)`: pop from the cache (a present but
empty value is falsy in Python and falls through to the DB), else
spend from the DB. -/
def spend_utxo (env : Env) (s : St) (txHash : List Nat) (txIdx : Nat) :
    Except Err (List Nat × St) :=
  let idxPacked := le16 txIdx
  match assocPop s.utxo_cache (txHash ++ idxPacked) with
  | (some cv, cache') =>
    if cv ≠ [] then .ok (cv, { s with utxo_cache := cache' })
    else spendFromDB env { s with utxo_cache := cache' } txHash idxPacked
  | (none, _) => spendFromDB env s txHash idxPacked

/-! ## Advancing transactions and blocks -/

/-- The input loop of `advance_txs`: spend each input's prevout,
append the returned 23-byte value to the undo record, and record its
fingerprint (`cache_value[:-12]`). -/
def spendInputs (env : Env) :
    List TxIn → St → List (List Nat) → List (List Nat) →
    Except Err (St × List (List Nat) × List (List Nat))
  | [], s, undo, hxs => .ok (s, undo, hxs)
  | txin :: rest, s, undo, hxs => do
    let (cv, s') ← spend_utxo env s txin.prevHash txin.prevIdx
    spendInputs env rest s' (undo ++ [cv]) (hxs ++ [cv.take (cv.length - 12)])

/-- The output loop of `advance_txs`: for each spendable output (a
falsy — absent or empty — hashX is skipped) put
`tx_hash ‖ idx_u16 ↦ hashX ‖ tx_num_u32 ‖ value_u64` into the cache. -/
def addOutputs (env : Env) (txHash txNumb : List Nat) :
    List TxOut → Nat → St → List (List Nat) → St × List (List Nat)
  | [], _, s, hxs => (s, hxs)
  | o :: rest, idx, s, hxs =>
    match env.coin.hashXFromScript o.pkScript with
    | some hashX =>
      if hashX ≠ [] then
        addOutputs env txHash txNumb rest (idx + 1)
          { s with utxo_cache :=
              assocPut s.utxo_cache (txHash ++ le16 idx) (hashX ++ txNumb ++ le64 o.value) }
          (hxs ++ [hashX])
      else addOutputs env txHash txNumb rest (idx + 1) s hxs
    | none => addOutputs env txHash txNumb rest (idx + 1) s hxs

/-- The per-transaction loop of `advance_txs`, carrying the running
transaction ordinal, the undo record and the per-tx fingerprint
lists. -/
def advanceTxsLoop (env : Env) :
    List (Tx × List Nat) → Nat → St → List (List Nat) → List (List (List Nat)) →
    Except Err (Nat × St × List (List Nat) × List (List (List Nat)))
  | [], txNum, s, undo, hbt => .ok (txNum, s, undo, hbt)
  | (tx, txHash) :: rest, txNum, s, undo, hbt => do
    let txNumb := le32 txNum
    let r ←
      if tx.isCoinbase then .ok (s, undo, ([] : List (List Nat)))
      else spendInputs env tx.inputs s undo []
    let r2 := addOutputs env txHash txNumb tx.outputs 0 r.1 r.2.2
    let s := { r2.1 with touched := setUnion r2.1.touched r2.2 }
    advanceTxsLoop env rest (txNum + 1) s r.2.1 (hbt ++ [r2.2])

/-- `advance_txs(txs)`: append the concatenated tx hashes, run the
per-transaction loop, hand the per-tx fingerprints to the history
index, and update `tx_count` / `tx_counts`. Returns the undo record. -/
def advance_txs (env : Env) (txs : List (Tx × List Nat)) (s : St) :
    Except Err (List (List Nat) × St) := do
  let s := { s with tx_hashes := s.tx_hashes ++ [joinBytes (txs.map (·.2))] }
  let r ← advanceTxsLoop env txs s.tx_count s [] []
  let txNum := r.1
  let s := { r.2.1 with history := histAddUnflushed r.2.1.history r.2.2.2 }
  .ok (r.2.2.1, { s with tx_count := txNum, tx_counts := s.tx_counts ++ [txNum] })

/-- The per-block loop of `advance_blocks`: advance the transactions
and, when the height is within the undo window, record the undo
information and archive the raw block. -/
def advanceBlocksLoop (env : Env) (minH : Int) :
    List Block → Nat → St → Except Err (Nat × St)
  | [], height, s => .ok (height, s)
  | b :: rest, height, s => do
    let height := height + 1
    let r ← advance_txs env b.transactions s
    let s :=
      if (height : Int) ≥ minH then
        { r.2 with undo_infos := r.2.undo_infos ++ [(r.1, height)],
                   raw_blocks := write_raw_block r.2.raw_blocks height b.raw }
      else r.2
    advanceBlocksLoop env minH rest height s

/-! ## Flushing -/

/-- `flush_state(batch)`: account wall time (frozen clock) and write the
persisted chain-state keys. -/
def flush_state (env : Env) (s : St) : St :=
  write_utxo_state env
    { s with wall_time := s.wall_time + (s.now - s.last_flush),
             last_flush := s.now,
             last_flush_tx_count := s.tx_count }

/-- `assert_flushed()`. -/
def assert_flushed (s : St) : Except Err Unit := do
  chk (s.tx_count = s.fs_tx_count ∧ s.fs_tx_count = s.db_tx_count)
  chk (s.height = s.fs_height ∧ s.fs_height = s.db_height)
  chk (s.undo_infos = [])
  chk (s.utxo_cache = [])
  chk (s.db_deletes = [])
  chk (s.history.unflushedSize = 0)

/-- `fs_flush()`: append headers and tx hashes to the filesystem and
advance the `fs_*` pointers. The second Python assert parses as
`assert (tx_count == tx_counts[-1]) if tx_counts else 0`, so an empty
`tx_counts` asserts `0` and fails. -/
def fs_flush (s : St) : Except Err St := do
  chk (s.fs_height + s.headers.length = s.height)
  match s.tx_counts.getLast? with
  | none => .error .assertion
  | some t => chk (s.tx_count = t)
  .ok { s with fs_headers := s.fs_headers ++ s.headers,
               fs_tx_hashes := s.fs_tx_hashes ++ s.tx_hashes,
               fs_height := s.height, fs_tx_count := s.tx_count,
               tx_hashes := [], headers := [] }

/-- `flush_utxos(batch)`: apply the sorted deletes, write the `h` and
`u` records for every cache entry, serialize the undo records, and
advance the `db_*` shadow state. -/
def flush_utxos (_env : Env) (s : St) : St :=
  let db := (sortBytes s.db_deletes).foldl kvDel s.utxo_db
  let db := s.utxo_cache.foldl
    (fun db e =>
      let k := e.1
      let v := e.2
      let hashX := v.take (v.length - 12)
      let suffix := k.drop (k.length - 2) ++ (v.drop (v.length - 12)).take 4
      let db := kvPut db (104 :: (k.take 4 ++ suffix)) hashX
      kvPut db (117 :: (hashX ++ suffix)) (v.drop (v.length - 8))) db
  let db := s.undo_infos.foldl
    (fun db ui => kvPut db (undoKey ui.2) (joinBytes ui.1)) db
  { s with utxo_db := db, db_deletes := [], utxo_cache := [], undo_infos := [],
           utxo_flush_count := s.history.flushCount,
           db_tx_count := s.tx_count, db_height := s.height, db_tip := s.tip }

/-- `flush(flush_utxos)`: no-op (after `assert_flushed`) when
`height == db_height`; otherwise flush the filesystem, the history
index, optionally the UTXOs, and the chain state (written once in the
batch and once again directly afterwards). -/
def flush (env : Env) (flushUtxos : Bool) (s : St) : Except Err St :=
  if s.height = s.db_height then do
    assert_flushed s
    .ok s
  else do
    let s ← fs_flush s
    let s := { s with history := (histFlush s.history).2 }
    let s := if flushUtxos then flush_utxos env s else s
    let s := flush_state env s
    let s := flush_state env s
    .ok s

/-- `check_cache_size()`: estimate cache memory and flush when over
budget; history over a fifth of the budget also forces a flush, and
the UTXOs are included in that flush only at four fifths of the
budget. -/
def check_cache_size (env : Env) (s : St) : Except Err St :=
  let oneMB := 1000 * 1000
  let utxoCacheSize := s.utxo_cache.length * 205
  let dbDeletesSize := s.db_deletes.length * 57
  let histCacheSize := s.history.unflushedSize
  let txHashSize := (s.tx_count - s.fs_tx_count) * 32 + (s.height - s.fs_height) * 42
  let utxoMB := (dbDeletesSize + utxoCacheSize) / oneMB
  let histMB := (histCacheSize + txHashSize) / oneMB
  if utxoMB + histMB ≥ env.cacheMB ∨ histMB ≥ env.cacheMB / 5 then
    flush env (decide (utxoMB ≥ env.cacheMB * 4 / 5)) s
  else .ok s

/-- `advance_blocks(blocks)`: run the per-block loop, extend the
headers, move the tip, then flush fully when caught up or run the
periodic cache-size check (`headers[-1]` on an empty batch raises). -/
def advance_blocks (env : Env) (blocks : List Block) (s : St) : Except Err St := do
  let minH := min_undo_height env
  let r ← advanceBlocksLoop env minH blocks s.height s
  let headers := blocks.map (·.header)
  match headers.getLast? with
  | none => .error .index
  | some lastHeader =>
    let s := { r.2 with height := r.1, headers := r.2.headers ++ headers,
                        tip := env.coin.headerHash lastHeader }
    if s.caught_up then flush env true s
    else
      if s.now > s.next_cache_check then do
        let s ← check_cache_size env s
        .ok { s with next_cache_check := s.now + 30 }
      else .ok s

/-! ## Backing up -/

/-- `backup_flush()`: assert the backup precondition, move the
filesystem pointers back, back up the history index, and flush the
UTXO and chain state. -/
def backup_flush (env : Env) (s : St) : Except Err St := do
  chk (s.height < s.db_height)
  chk (s.history.unflushedSize = 0)
  let s := { s with fs_height := s.height, fs_tx_count := s.tx_count }
  chk (s.headers = [])
  chk (s.tx_hashes = [])
  let s := { s with history := histBackup s.history }
  let s := flush_utxos env s
  .ok (flush_state env s)

/-- The reversed-output loop of `backup_txs`: re-spend each spendable
output of the transaction. -/
def backupSpendOutputs (env : Env) (txHash : List Nat) :
    List TxOut → Nat → St → Except Err St
  | [], _, s => .ok s
  | o :: rest, idx, s =>
    match env.coin.hashXFromScript o.pkScript with
    | some hashX =>
      if hashX ≠ [] then do
        let (cv, s) ← spend_utxo env s txHash idx
        backupSpendOutputs env txHash rest (idx + 1)
          { s with touched := setAdd s.touched (cv.take (cv.length - 12)) }
      else backupSpendOutputs env txHash rest (idx + 1) s
    | none => backupSpendOutputs env txHash rest (idx + 1) s

/-- The reversed-input loop of `backup_txs`: consume 23-byte slots of
the undo record from the end, reinserting each spent UTXO. The cursor
is an `Int`; a negative cursor makes the final `assert n == 0` fail,
as in the source (the slice contents on that dead branch are not
modelled bit-exactly). -/
def backupRestoreInputs : List TxIn → Int → List Nat → St → Int × St
  | [], n, _, s => (n, s)
  | txin :: rest, n, u, s =>
    let n := n - 23
    let item := (u.drop n.toNat).take 23
    let s := { s with
      utxo_cache := assocPut s.utxo_cache (txin.prevHash ++ le16 txin.prevIdx) item,
      touched := setAdd s.touched (item.take (item.length - 12)) }
    backupRestoreInputs rest n u s

/-- The per-transaction loop of `backup_txs`, over the reversed
transaction list. -/
def backupTxsLoop (env : Env) (u : List Nat) :
    List (Tx × List Nat) → Int → St → Except Err (Int × St)
  | [], n, s => .ok (n, s)
  | (tx, txHash) :: rest, n, s => do
    let s ← backupSpendOutputs env txHash tx.outputs 0 s
    let r :=
      if ¬ tx.isCoinbase then backupRestoreInputs tx.inputs.reverse n u s else (n, s)
    backupTxsLoop env u rest r.1 r.2

/-- `backup_txs(txs)`: a missing undo record is a `ChainError`; walk
the transactions in reverse, check the undo cursor landed at zero, and
decrement `tx_count`. -/
def backup_txs (env : Env) (txs : List (Tx × List Nat)) (s : St) : Except Err St := do
  match read_undo_info s s.height with
  | none => .error .chain
  | some u => do
    let r ← backupTxsLoop env u txs.reverse (u.length : Int) s
    chk (r.1 = 0)
    .ok { r.2 with tx_count := r.2.tx_count - txs.length }

/-- One iteration of the `backup_blocks` loop: decode the raw block at
the current height, fail with `ChainError` if its header hash is not
the tip (before touching any state), then move the tip to the block's
previous hash, back up its transactions, decrement the height and pop
`tx_counts` (raising on an empty list as `list.pop` does). -/
def backupBlockStep (env : Env) (raw : List Nat) (s : St) : Except Err St := do
  let block := env.coin.block raw s.height
  let headerHash := env.coin.headerHash block.header
  if headerHash ≠ s.tip then .error .chain
  else do
    let s := { s with tip := env.coin.headerPrevhash block.header }
    let s ← backup_txs env block.transactions s
    if s.tx_counts.isEmpty then .error .index
    else .ok { s with height := s.height - 1, tx_counts := s.tx_counts.dropLast }

/-- The loop of `backup_blocks` over the raw blocks (decreasing
heights). -/
def backupBlocksLoop (env : Env) : List (List Nat) → St → Except Err St
  | [], s => .ok s
  | r :: rest, s => do
    let s ← backupBlockStep env r s
    backupBlocksLoop env rest s

/-- `backup_blocks(raw_blocks)`: assert all caches flushed and enough
height, back up every block, then `backup_flush`. -/
def backup_blocks (env : Env) (raws : List (List Nat)) (s : St) : Except Err St := do
  assert_flushed s
  chk (s.height ≥ raws.length)
  let s ← backupBlocksLoop env raws s
  backup_flush env s

/-! ## Chain reorganisation: fork-point search and chunked backup -/

/-- Modelled from the spec: `fs_block_hashes(start, count)` — the local
block hashes for `count` heights from `start`. -/
def fs_block_hashes (env : Env) (start : Int) (count : Nat) : List (List Nat) :=
  (List.range count).map (fun (i : Nat) => env.localChain (start + (i : Int)))

/-- Modelled from the spec: the daemon's `block_hex_hashes(start, count)`
(hex encoding elided; it is injective, so equality tests agree). -/
def daemon_block_hex_hashes (env : Env) (start : Int) (count : Nat) : List (List Nat) :=
  (List.range count).map (fun (i : Nat) => env.daemonChain (start + (i : Int)))

/-- The recursion behind `diff_pos`. -/
def diffPosGo : List (List Nat) → List (List Nat) → Nat → Option Nat
  | a :: as_, b :: bs, n => if a ≠ b then some n else diffPosGo as_ bs (n + 1)
  | _, _, _ => none

/-- `diff_pos(hashes1, hashes2)`: the index of the first difference; if
the zipped lists match it returns `len(hashes)` — the length of the
enclosing scope's local hash list, passed here as `hlen`. -/
def diff_pos (h1 h2 : List (List Nat)) (hlen : Nat) : Nat :=
  (diffPosGo h1 h2 0).getD hlen

/-- The `while start > 0` fork-point search of `reorg_hashes` for a
real reorg. The window size is carried as `cm1 + 1`, which encodes
that `count` starts at 1 and `min(count * 2, start)` keeps it
positive while the loop runs. Returns the final `start`. -/
def reorgSearchLoop (env : Env) (start : Int) (cm1 : Nat) : Int :=
  if h : 0 < start then
    let count := cm1 + 1
    let hashes := fs_block_hashes env start count
    let dhashes := daemon_block_hex_hashes env start count
    let n := diff_pos hashes dhashes hashes.length
    if 0 < n then start + n
    else
      let count' := min (count * 2) start.toNat
      reorgSearchLoop env (start - count') (count' - 1)
  else start
termination_by start.toNat
decreasing_by
  have h1 : 1 ≤ min ((cm1 + 1) * 2) start.toNat := by
    have : 1 ≤ start.toNat := by omega
    omega
  have := Int.toNat_of_nonneg (le_of_lt h)
  omega

/-- `reorg_hashes(count)`: for `count=None` run the fork-point search
from `height - 1` with window 1, then return the fork start and the
local hashes from there up to the current height; for an integer
`count` just take the last `count` heights. -/
def reorg_hashes (env : Env) (height : Nat) (count : Option Nat) :
    Int × List (List Nat) :=
  match count with
  | none =>
    let start := reorgSearchLoop env ((height : Int) - 1) 0
    let cnt := ((height : Int) - start) + 1
    (start, fs_block_hashes env start cnt.toNat)
  | some c =>
    let start := (height : Int) - c + 1
    (start, fs_block_hashes env start c)

/-- `chunks(items, size)` from the library utilities (not under the
sources; modelled from the spec's "in chunks of 50 heights"). -/
def listChunks (n : Nat) : List α → List (List α)
  | [] => []
  | x :: xs => (x :: xs.take n) :: listChunks n (xs.drop n)
termination_by l => l.length
decreasing_by simp [List.length_drop]; omega

/-- The heights `range(last_height, last_height - len, -1)` that
`get_raw_blocks` reads from the local raw-block archive for one
chunk. -/
def getRawBlocksHeights (last : Int) (len : Nat) : List Int :=
  (List.range len).map (fun i => last - i)

/-- The chunk plan of `reorg_chain`: the reorg hashes are reversed,
split into chunks of 50, and each chunk is passed to `get_raw_blocks`
with a running `last` height that starts at `start + count - 1` for a
simulated reorg but at `start` for a real one, and decreases by the
chunk length. Returns, per chunk, that `last` height and the chunk of
hex hashes. -/
def reorgChunkPlanGo (last : Int) : List (List (List Nat)) → List (Int × List (List Nat))
  | [] => []
  | c :: cs => (last, c) :: reorgChunkPlanGo (last - c.length) cs

def reorgChunkPlan (env : Env) (height : Nat) (count : Option Nat) :
    List (Int × List (List Nat)) :=
  let r := reorg_hashes env height count
  let start := r.1
  let hashes := r.2.reverse
  let last : Int :=
    match count with
    | some c => start + c - 1
    | none => start
  reorgChunkPlanGo last (listChunks 49 hashes)

/-! ## Specification-side predicates and definitions -/

/-- The shadow-state ordering invariant along the height and tx-count
axes (`db_* ≤ fs_* ≤ *`). -/
def shadowInv (s : St) : Prop :=
  s.db_height ≤ s.fs_height ∧ s.fs_height ≤ s.height ∧
  s.db_tx_count ≤ s.fs_tx_count ∧ s.fs_tx_count ≤ s.tx_count

instance (s : St) : Decidable (shadowInv s) := by unfold shadowInv; infer_instance

/-- Full flushed-ness: the property `assert_flushed` checks. -/
def flushedPred (s : St) : Prop :=
  s.tx_count = s.fs_tx_count ∧ s.fs_tx_count = s.db_tx_count ∧
  s.height = s.fs_height ∧ s.fs_height = s.db_height ∧
  s.undo_infos = [] ∧ s.utxo_cache = [] ∧ s.db_deletes = [] ∧
  s.history.unflushedSize = 0

instance (s : St) : Decidable (flushedPred s) := by unfold flushedPred; infer_instance

/-- The filter a candidate of the `h`-table prefix scan must pass for
`spend_utxo` to use it: when more than one candidate exists its
trailing ordinal must map back (via `fs_tx_hash`) to the spent
transaction's full hash, and its companion `u`-table entry must be
present and non-empty. -/
def spendPass (env : Env) (txHash : List Nat) (ncand : Nat) (db : KV)
    (c : List Nat × List Nat) : Bool :=
  (decide (ncand ≤ 1) ||
    ((env.fsTxHash (leToNat (c.1.drop (c.1.length - 4)))).1 == some txHash)) &&
  (spendTryU db c.1 c.2 (c.1.drop (c.1.length - 4))).isSome

/-- The success value extracted from a passing candidate. -/
def spendHit (db : KV) (c : List Nat × List Nat) :
    List Nat × List Nat × List Nat :=
  (spendTryU db c.1 c.2 (c.1.drop (c.1.length - 4))).getD ([], [], [])

/-- Totality of `fs_tx_hash` over a candidate list: the hypothesis
under which the collision-resolution loop never hits its internal
assert. -/
def fsTotal (env : Env) (ncand : Nat) (cands : List (List Nat × List Nat)) : Prop :=
  ∀ c ∈ cands, 1 < ncand → (env.fsTxHash (leToNat (c.1.drop (c.1.length - 4)))).1 ≠ none

instance (env : Env) (ncand : Nat) (cands : List (List Nat × List Nat)) :
    Decidable (fsTotal env ncand cands) := by
  unfold fsTotal; infer_instance

/-- The `h`-table scan prefix for `(tx_hash, idx)`. -/
def hPre (txHash : List Nat) (txIdx : Nat) : List Nat :=
  104 :: (txHash.take 4 ++ le16 txIdx)

/-- The cache value found for a key, or `[]` when absent — Python
falsy in either case. -/
def cacheFound (s : St) (key : List Nat) : List Nat :=
  ((s.utxo_cache.find? (fun e => e.1 = key)).map (·.2)).getD []

/-- Spec-side restatement of the `check_cache_size` trigger: `some b`
when a flush with `flush_utxos = b` fires, `none` when nothing
happens. Written from the amended claim: a flush fires iff the
combined integer-MB estimate reaches the budget or the history side
alone reaches a fifth of it; UTXOs are included iff their estimate
reaches four fifths of the budget. -/
def specCacheTrigger (env : Env) (s : St) : Option Bool :=
  let utxoMB := (s.utxo_cache.length * 205 + s.db_deletes.length * 57) / (1000 * 1000)
  let histMB := (s.history.unflushedSize +
    ((s.tx_count - s.fs_tx_count) * 32 + (s.height - s.fs_height) * 42)) / (1000 * 1000)
  if utxoMB + histMB ≥ env.cacheMB ∨ histMB ≥ env.cacheMB / 5 then
    some (decide (utxoMB ≥ env.cacheMB * 4 / 5))
  else none

/-- The length of the agreeing prefix of two hash lists. -/
def commonPreLen : List (List Nat) → List (List Nat) → Nat
  | a :: as_, b :: bs => if a = b then commonPreLen as_ bs + 1 else 0
  | _, _ => 0

/-- The fork-point search written from the claim's description: compare
the local and daemon hash windows; when they agree on a non-empty
prefix of length `n`, the fork is at `start + n`; otherwise double the
window (capped at `start`), move `start` down by it and repeat,
stopping at `start = 0`. -/
def specForkSearch (env : Env) (start : Int) (cm1 : Nat) : Int :=
  if h : 0 < start then
    let count := cm1 + 1
    let n := commonPreLen (fs_block_hashes env start count)
      (daemon_block_hex_hashes env start count)
    if 0 < n then start + n
    else
      let count' := min (count * 2) start.toNat
      specForkSearch env (start - count') (count' - 1)
  else start
termination_by start.toNat
decreasing_by
  have h1 : 1 ≤ min ((cm1 + 1) * 2) start.toNat := by
    have : 1 ≤ start.toNat := by omega
    omega
  have := Int.toNat_of_nonneg (le_of_lt h)
  omega

/-- Total transaction count of a block list. -/
def sumTxs (blocks : List Block) : Nat :=
  (blocks.map (fun b => b.transactions.length)).sum

/-! ## Concrete scenarios

A minimal chain for the advance/backup round trip: a flushed state at
height 1 whose tip is `[50, 1]`, and one block at height 2 holding a
single coinbase transaction with one spendable output. -/

def c1HashX : List Nat := [1, 2, 3, 4, 5, 6, 7, 8, 9, 10, 11]

def c1TxHash : List Nat := List.replicate 32 3

def c1Tx : Tx :=
  { isCoinbase := true, inputs := [], outputs := [{ pkScript := [7], value := 50 }] }

def c1Block : Block :=
  { header := [2], transactions := [(c1Tx, c1TxHash)], raw := [9, 9] }

def c1Coin : Coin :=
  { block := fun raw _h => if raw = c1Block.raw then c1Block else ⟨[], [], []⟩,
    headerHash := fun hd => 50 :: hd,
    headerPrevhash := fun _ => [50, 1],
    hashXFromScript := fun scr => if scr = [7] then some c1HashX else none }

def c1Env : Env :=
  { coin := c1Coin,
    fsTxHash := fun _ => (some [], 0),
    daemonCachedHeight := 2,
    reorgLimit := 10,
    cacheMB := 100,
    genesisHash := List.replicate 32 0,
    localChain := fun _ => [],
    daemonChain := fun _ => [] }

def c1S0 : St :=
  { height := 1, tip := [50, 1], tx_count := 1,
    fs_height := 1, fs_tx_count := 1,
    db_height := 1, db_tx_count := 1, db_tip := [50, 1],
    tx_counts := [1], headers := [], tx_hashes := [],
    undo_infos := [], utxo_cache := [], db_deletes := [],
    utxo_db := [(stateKey, [1, 1, 0, 0] ++ [50, 1] ++ List.replicate 32 0)],
    touched := [], wall_time := 0, last_flush := 0, last_flush_tx_count := 1,
    utxo_flush_count := 0, history := ⟨0, 0⟩,
    fs_headers := [], fs_tx_hashes := [], raw_blocks := [],
    caught_up := true, now := 0, next_cache_check := 0 }

/-- The state after advancing the block (the processor is caught up, so
`advance_blocks` ends in a full flush). -/
def c1S1 : St := (advance_blocks c1Env [c1Block] c1S0).toOption.getD c1S0

/-- The state after immediately backing the same block up again. -/
def c1S3 : St := (backup_blocks c1Env [c1Block.raw] c1S1).toOption.getD c1S0

/-- The state in the middle of `backup_blocks`, after the first block's
loop iteration and before `backup_flush`. -/
def c1SMid : St := (backupBlockStep c1Env c1Block.raw c1S1).toOption.getD c1S0

/-- Core chain-state fields untouched by an operation. -/
def eqCore (s s' : St) : Prop :=
  s'.height = s.height ∧ s'.tip = s.tip ∧ s'.tx_count = s.tx_count ∧
  s'.fs_height = s.fs_height ∧ s'.fs_tx_count = s.fs_tx_count ∧
  s'.db_height = s.db_height ∧ s'.db_tx_count = s.db_tx_count

/-- The `fs_*` and `db_*` shadow fields untouched by an operation. -/
def eqShadow (s s' : St) : Prop :=
  s'.fs_height = s.fs_height ∧ s'.fs_tx_count = s.fs_tx_count ∧
  s'.db_height = s.db_height ∧ s'.db_tx_count = s.db_tx_count

/-! ### A colliding pair of UTXOs (collision resolution and its absence)

Two stored UTXOs whose transaction hashes share their first four
bytes, at the same output index, with ordinals 7 and 9. -/

def c3TxHashA : List Nat := [1, 2, 3, 4] ++ List.replicate 28 5

def c3TxHashB : List Nat := [1, 2, 3, 4] ++ List.replicate 28 6

def c3HashXA : List Nat := List.replicate 11 1

def c3HashXB : List Nat := List.replicate 11 2

def c3HkA : List Nat := 104 :: ([1, 2, 3, 4] ++ le16 0 ++ le32 7)

def c3HkB : List Nat := 104 :: ([1, 2, 3, 4] ++ le16 0 ++ le32 9)

def c3UkA : List Nat := 117 :: (c3HashXA ++ le16 0 ++ le32 7)

def c3UkB : List Nat := 117 :: (c3HashXB ++ le16 0 ++ le32 9)

/-- Both UTXOs fully stored (`h` and `u` rows each). -/
def c3Db : KV :=
  kvPut (kvPut (kvPut (kvPut [] c3HkA c3HashXA) c3HkB c3HashXB)
    c3UkA (le64 100)) c3UkB (le64 200)

def c3Env : Env :=
  { c1Env with
    fsTxHash := fun n =>
      if n = 7 then (some c3TxHashA, 2) else if n = 9 then (some c3TxHashB, 2)
      else (none, 0) }

def c3St : St := { c1S0 with utxo_db := c3Db }

/-- Only transaction A's `h` row, with no companion `u` row. -/
def c4Db : KV := kvPut [] c3HkA c3HashXA

def c4St : St := { c1S0 with utxo_db := c4Db }

/-- Only transaction A's UTXO (both rows); transaction B's hash
collides with it on the 4-byte fingerprint but has no stored UTXO. -/
def c10Db : KV := kvPut (kvPut [] c3HkA c3HashXA) c3UkA (le64 100)

def c10St : St := { c1S0 with utxo_db := c10Db }

/-! ### A dirty state for flush idempotence -/

def c5S : St :=
  { c1S0 with
    height := 2, tx_count := 2, tx_counts := [1, 2],
    headers := [[2]], tx_hashes := [c1TxHash],
    utxo_cache := [(c1TxHash ++ le16 0, c1HashX ++ le32 1 ++ le64 50)],
    undo_infos := [([], 2)],
    history := ⟨1, 0⟩ }

def c5S' : St := (flush c1Env true c5S).toOption.getD c5S

/-- The same dirty state flushed with `flush_utxos = False`. -/
def c5Sf : St := (flush c1Env false c5S).toOption.getD c5S

/-! ### A state whose UTXO estimate exceeds 80% of the budget

23,903 cache entries × 205 bytes = 4,900,115 bytes, against a 5 MB
budget: over 80% of the budget, yet `check_cache_size` does not
flush because neither of the code's two conditions holds. -/

def c6Env : Env := { c1Env with cacheMB := 5 }

/-- A 23,903-entry UTXO cache with distinct keys. -/
def c6Cache : List (List Nat × List Nat) :=
  (List.range 23903).map
    (fun i => (le32 i ++ List.replicate 26 0 ++ le16 0, c1HashX ++ le32 1 ++ le64 50))

/-- The cache-size scenario state, parameterized by its cache. -/
def c6StOf (l : List (List Nat × List Nat)) : St :=
  { c1S0 with
    height := 2, fs_height := 2, fs_tx_count := 1,
    tx_counts := [1],
    utxo_cache := l }

/-! ### A five-block local chain whose last three blocks were reorged

The daemon agrees with the local chain below height 3 and differs from
it at heights 3, 4 and 5. -/

def c8Env : Env :=
  { c1Env with
    daemonCachedHeight := 5,
    localChain := fun i => [100 + i.toNat],
    daemonChain := fun i => if 3 ≤ i then [200 + i.toNat] else [100 + i.toNat] }

/-! ## Lemmas: asserts, spend effects -/

theorem okBind {α β : Type} {a : α} {f : α → Except Err β} :
    (Except.ok a >>= f) = f a := rfl

theorem errBind {α β : Type} {e : Err} {f : α → Except Err β} :
    ((Except.error e : Except Err α) >>= f) = .error e := rfl

theorem chk_ok_iff {p : Prop} [Decidable p] : chk p = .ok () ↔ p := by
  unfold chk; split <;> simp_all

theorem chk_bind_ok {p : Prop} [Decidable p] {α} {f : Unit → Except Err α} {a : α}
    (h : (chk p >>= f) = .ok a) : p ∧ f () = .ok a := by
  unfold chk at h; split at h <;> simp_all [okBind, errBind]

theorem assert_flushed_ok_iff {s : St} : assert_flushed s = .ok () ↔ flushedPred s := by
  constructor
  · intro h
    unfold assert_flushed at h
    have h1 := chk_bind_ok h
    have h2 := chk_bind_ok h1.2
    have h3 := chk_bind_ok h2.2
    have h4 := chk_bind_ok h3.2
    have h5 := chk_bind_ok h4.2
    have h6 := chk_ok_iff.mp h5.2
    exact ⟨h1.1.1, h1.1.2, h2.1.1, h2.1.2, h3.1, h4.1, h5.1, h6⟩
  · intro h
    obtain ⟨a, b, c, d, e, f, g, i⟩ := h
    unfold assert_flushed chk
    simp [a, b, c, d, e, f, g, i, okBind]

theorem eqCore_refl (s : St) : eqCore s s := by
  unfold eqCore; exact ⟨rfl, rfl, rfl, rfl, rfl, rfl, rfl⟩

theorem eqCore_trans {s t u : St} (h1 : eqCore s t) (h2 : eqCore t u) : eqCore s u := by
  unfold eqCore at *
  exact ⟨h2.1.trans h1.1, h2.2.1.trans h1.2.1, h2.2.2.1.trans h1.2.2.1,
    h2.2.2.2.1.trans h1.2.2.2.1, h2.2.2.2.2.1.trans h1.2.2.2.2.1,
    h2.2.2.2.2.2.1.trans h1.2.2.2.2.2.1, h2.2.2.2.2.2.2.trans h1.2.2.2.2.2.2⟩

theorem spendFromDB_core {env : Env} {s s' : St} {th ip v : List Nat}
    (h : spendFromDB env s th ip = .ok (v, s')) : eqCore s s' := by
  simp only [spendFromDB] at h
  split at h
  · exact absurd h (by simp)
  · exact absurd h (by simp)
  · simp only [Except.ok.injEq, Prod.mk.injEq] at h
    rw [← h.2]
    exact ⟨rfl, rfl, rfl, rfl, rfl, rfl, rfl⟩

theorem spend_utxo_core {env : Env} {s s' : St} {th : List Nat} {i : Nat} {v : List Nat}
    (h : spend_utxo env s th i = .ok (v, s')) : eqCore s s' := by
  simp only [spend_utxo] at h
  split at h
  next cv cache' heq =>
    split at h
    · simp only [Except.ok.injEq, Prod.mk.injEq] at h
      rw [← h.2]
      exact ⟨rfl, rfl, rfl, rfl, rfl, rfl, rfl⟩
    · have h2 := spendFromDB_core h
      exact h2
  next heq => exact spendFromDB_core h

theorem spendInputs_core {env : Env} :
    ∀ (l : List TxIn) (s : St) (u hx : List (List Nat)) (s' : St) (u' hx' : List (List Nat)),
    spendInputs env l s u hx = .ok (s', u', hx') → eqCore s s' := by
  intro l
  induction l with
  | nil =>
    intro s u hx s' u' hx' h
    unfold spendInputs at h
    simp only [Except.ok.injEq, Prod.mk.injEq] at h
    rw [← h.1]
    exact eqCore_refl s
  | cons txin rest ih =>
    intro s u hx s' u' hx' h
    simp only [spendInputs] at h
    cases heq : spend_utxo env s txin.prevHash txin.prevIdx with
    | error e => rw [heq, errBind] at h; exact absurd h (by simp)
    | ok p =>
      rw [heq, okBind] at h
      exact eqCore_trans (spend_utxo_core heq) (ih _ _ _ _ _ _ h)

theorem addOutputs_core {env : Env} {th tn : List Nat} :
    ∀ (l : List TxOut) (i : Nat) (s : St) (hx : List (List Nat)),
    eqCore s (addOutputs env th tn l i s hx).1 := by
  intro l
  induction l with
  | nil => intro i s hx; unfold addOutputs; exact eqCore_refl s
  | cons o rest ih =>
    intro i s hx
    unfold addOutputs
    split
    · split
      · exact ih _ _ _
      · exact ih _ _ _
    · exact ih _ _ _

/-! ## Lemmas: advance effects -/

theorem sumTxs_cons (b : Block) (l : List Block) :
    sumTxs (b :: l) = b.transactions.length + sumTxs l := by
  simp [sumTxs]

theorem advanceTxsLoop_effects {env : Env} :
    ∀ (txs : List (Tx × List Nat)) (txNum : Nat) (s : St) (u : List (List Nat))
      (hbt : List (List (List Nat)))
      (r : Nat × St × List (List Nat) × List (List (List Nat))),
    advanceTxsLoop env txs txNum s u hbt = .ok r →
    eqCore s r.2.1 ∧ r.1 = txNum + txs.length := by
  intro txs
  induction txs with
  | nil =>
    intro txNum s u hbt r h
    simp only [advanceTxsLoop] at h
    simp only [Except.ok.injEq] at h
    rw [← h]
    exact ⟨eqCore_refl s, rfl⟩
  | cons p rest ih =>
    intro txNum s u hbt r h
    obtain ⟨tx, txHash⟩ := p
    simp only [advanceTxsLoop] at h
    cases hc : tx.isCoinbase with
    | true =>
      rw [hc] at h
      simp only [if_pos rfl, okBind] at h
      have h2 := ih _ _ _ _ _ h
      have h3 : eqCore s (addOutputs env txHash (le32 txNum) tx.outputs 0 s []).1 :=
        addOutputs_core tx.outputs 0 s []
      refine ⟨eqCore_trans h3 h2.1, ?_⟩
      rw [h2.2]
      simp [List.length_cons]
      omega
    | false =>
      rw [hc] at h
      simp only [Bool.false_eq_true, if_false] at h
      cases heq : spendInputs env tx.inputs s u [] with
      | error e => rw [heq, errBind] at h; exact absurd h (by simp)
      | ok q =>
        rw [heq, okBind] at h
        have h2 := ih _ _ _ _ _ h
        have hsp : eqCore s q.1 :=
          spendInputs_core tx.inputs s u [] q.1 q.2.1 q.2.2 (by rw [heq])
        have h3 : eqCore q.1 (addOutputs env txHash (le32 txNum) tx.outputs 0 q.1 q.2.2).1 :=
          addOutputs_core tx.outputs 0 q.1 q.2.2
        refine ⟨eqCore_trans hsp (eqCore_trans h3 h2.1), ?_⟩
        rw [h2.2]
        simp [List.length_cons]
        omega

theorem advance_txs_effects {env : Env} {txs : List (Tx × List Nat)} {s : St}
    {r : List (List Nat) × St} (h : advance_txs env txs s = .ok r) :
    r.2.height = s.height ∧ r.2.tip = s.tip ∧
    r.2.tx_count = s.tx_count + txs.length ∧ eqShadow s r.2 := by
  simp only [advance_txs] at h
  cases heq : advanceTxsLoop env txs s.tx_count
      { s with tx_hashes := s.tx_hashes ++ [joinBytes (txs.map (·.2))] } [] [] with
  | error e => rw [heq, errBind] at h; exact absurd h (by simp)
  | ok q =>
    rw [heq, okBind] at h
    have h2 := advanceTxsLoop_effects txs s.tx_count _ [] [] q heq
    have e1 : q.2.1.height = s.height := h2.1.1
    have e2 : q.2.1.tip = s.tip := h2.1.2.1
    have e3 : q.1 = s.tx_count + txs.length := h2.2
    have e4 : q.2.1.fs_height = s.fs_height := h2.1.2.2.2.1
    have e5 : q.2.1.fs_tx_count = s.fs_tx_count := h2.1.2.2.2.2.1
    have e6 : q.2.1.db_height = s.db_height := h2.1.2.2.2.2.2.1
    have e7 : q.2.1.db_tx_count = s.db_tx_count := h2.1.2.2.2.2.2.2
    simp only [Except.ok.injEq] at h
    rw [← h]
    exact ⟨e1, e2, e3, e4, e5, e6, e7⟩

theorem advanceBlocksLoop_effects {env : Env} {minH : Int} :
    ∀ (blocks : List Block) (hgt : Nat) (s : St) (r : Nat × St),
    advanceBlocksLoop env minH blocks hgt s = .ok r →
    r.1 = hgt + blocks.length ∧ r.2.height = s.height ∧ r.2.tip = s.tip ∧
    r.2.tx_count = s.tx_count + sumTxs blocks ∧ eqShadow s r.2 := by
  intro blocks
  induction blocks with
  | nil =>
    intro hgt s r h
    simp only [advanceBlocksLoop] at h
    simp only [Except.ok.injEq] at h
    rw [← h]
    exact ⟨rfl, rfl, rfl, by simp [sumTxs], ⟨rfl, rfl, rfl, rfl⟩⟩
  | cons b rest ih =>
    intro hgt s r h
    simp only [advanceBlocksLoop] at h
    cases heq : advance_txs env b.transactions s with
    | error e => rw [heq, errBind] at h; exact absurd h (by simp)
    | ok q =>
      rw [heq, okBind] at h
      have h1 := advance_txs_effects heq
      have hlen : r.1 = hgt + (b :: rest).length ∧ r.2.height = q.2.height ∧
          r.2.tip = q.2.tip ∧ r.2.tx_count = q.2.tx_count + sumTxs rest ∧
          eqShadow q.2 r.2 := by
        split at h
        · have h2 := ih _ _ _ h
          have g1 : r.1 = (hgt + 1) + rest.length := h2.1
          have g2 : r.2.height = q.2.height := h2.2.1
          have g3 : r.2.tip = q.2.tip := h2.2.2.1
          have g4 : r.2.tx_count = q.2.tx_count + sumTxs rest := h2.2.2.2.1
          have g5 : r.2.fs_height = q.2.fs_height := h2.2.2.2.2.1
          have g6 : r.2.fs_tx_count = q.2.fs_tx_count := h2.2.2.2.2.2.1
          have g7 : r.2.db_height = q.2.db_height := h2.2.2.2.2.2.2.1
          have g8 : r.2.db_tx_count = q.2.db_tx_count := h2.2.2.2.2.2.2.2
          exact ⟨by rw [g1]; simp [List.length_cons]; omega, g2, g3, g4,
            ⟨g5, g6, g7, g8⟩⟩
        · have h2 := ih _ _ _ h
          exact ⟨by rw [h2.1]; simp [List.length_cons]; omega, h2.2.1, h2.2.2.1,
            h2.2.2.2.1, h2.2.2.2.2⟩
      refine ⟨hlen.1, hlen.2.1.trans h1.1, hlen.2.2.1.trans h1.2.1, ?_, ?_⟩
      · rw [hlen.2.2.2.1, h1.2.2.1, sumTxs_cons]
        omega
      · obtain ⟨a1, a2, a3, a4⟩ := hlen.2.2.2.2
        obtain ⟨b1, b2, b3, b4⟩ := h1.2.2.2
        exact ⟨a1.trans b1, a2.trans b2, a3.trans b3, a4.trans b4⟩

/-! ## Lemmas: flush structure -/

theorem fs_flush_ok {s s' : St} (h : fs_flush s = .ok s') :
    s' = { s with fs_headers := s.fs_headers ++ s.headers,
                  fs_tx_hashes := s.fs_tx_hashes ++ s.tx_hashes,
                  fs_height := s.height, fs_tx_count := s.tx_count,
                  tx_hashes := [], headers := [] } := by
  simp only [fs_flush] at h
  have h1 := chk_bind_ok h
  cases hg : s.tx_counts.getLast? with
  | none => rw [hg, errBind] at h1; exact absurd h1.2 (by simp)
  | some t =>
    rw [hg] at h1
    have h2 := chk_bind_ok h1.2
    simp only [okBind, Except.ok.injEq] at h2
    exact h2.2.symm

theorem flush_ok_cases {env : Env} {b : Bool} {s s' : St}
    (h : flush env b s = .ok s') :
    (s.height = s.db_height ∧ s' = s ∧ flushedPred s) ∨
    (s'.height = s.height ∧ s'.tip = s.tip ∧ s'.tx_count = s.tx_count ∧
     s'.fs_height = s.height ∧ s'.fs_tx_count = s.tx_count ∧
     (b = true → s'.db_height = s.height ∧ s'.db_tx_count = s.tx_count ∧
        s'.undo_infos = [] ∧ s'.utxo_cache = [] ∧ s'.db_deletes = [] ∧
        s'.history.unflushedSize = 0 ∧ s'.headers = [] ∧ s'.tx_hashes = []) ∧
     (b = false → s'.db_height = s.db_height ∧ s'.db_tx_count = s.db_tx_count)) := by
  simp only [flush] at h
  split at h
  next hh =>
    cases ha : assert_flushed s with
    | error e => rw [ha, errBind] at h; exact absurd h (by simp)
    | ok u =>
      rw [ha, okBind] at h
      simp only [Except.ok.injEq] at h
      exact Or.inl ⟨hh, h.symm, assert_flushed_ok_iff.mp (by cases u; exact ha)⟩
  next hh =>
    cases hf : fs_flush s with
    | error e => rw [hf, errBind] at h; exact absurd h (by simp)
    | ok s1 =>
      rw [hf, okBind] at h
      have he := fs_flush_ok hf
      subst he
      simp only [Except.ok.injEq] at h
      cases b with
      | true =>
        simp only [if_pos rfl] at h
        rw [← h]
        exact Or.inr ⟨rfl, rfl, rfl, rfl, rfl,
          fun _ => ⟨rfl, rfl, rfl, rfl, rfl, rfl, rfl, rfl⟩,
          fun hb => Bool.noConfusion hb⟩
      | false =>
        simp only [Bool.false_eq_true, if_false] at h
        rw [← h]
        exact Or.inr ⟨rfl, rfl, rfl, rfl, rfl, fun hb => Bool.noConfusion hb,
          fun _ => ⟨rfl, rfl⟩⟩

theorem flush_scalars {env : Env} {b : Bool} {s s' : St}
    (h : flush env b s = .ok s') :
    s'.height = s.height ∧ s'.tip = s.tip ∧ s'.tx_count = s.tx_count := by
  cases flush_ok_cases h with
  | inl hc => rw [hc.2.1]; exact ⟨rfl, rfl, rfl⟩
  | inr hc => exact ⟨hc.1, hc.2.1, hc.2.2.1⟩

theorem flush_true_flushed {env : Env} {s s' : St}
    (h : flush env true s = .ok s') : flushedPred s' := by
  cases flush_ok_cases h with
  | inl hc => rw [hc.2.1]; exact hc.2.2
  | inr hc =>
    obtain ⟨e1, e2, e3, e4, e5, hb, _⟩ := hc
    obtain ⟨d1, d2, d3, d4, d5, d6, _, _⟩ := hb rfl
    exact ⟨by rw [e3, e5], by rw [e5, d2], by rw [e1, e4], by rw [e4, d1],
      d3, d4, d5, d6⟩

theorem flush_inv {env : Env} {b : Bool} {s s' : St}
    (hinv : shadowInv s) (h : flush env b s = .ok s') : shadowInv s' := by
  cases flush_ok_cases h with
  | inl hc => rw [hc.2.1]; exact hinv
  | inr hc =>
    obtain ⟨e1, e2, e3, e4, e5, hbt, hbf⟩ := hc
    cases b with
    | true =>
      obtain ⟨d1, d2, _⟩ := hbt rfl
      exact ⟨by rw [d1, e4], by rw [e4, e1], by rw [d2, e5], by rw [e5, e3]⟩
    | false =>
      obtain ⟨d1, d2⟩ := hbf rfl
      obtain ⟨i1, i2, i3, i4⟩ := hinv
      exact ⟨by rw [d1, e4]; exact le_trans i1 i2, by rw [e4, e1],
        by rw [d2, e5]; exact le_trans i3 i4, by rw [e5, e3]⟩

theorem check_cache_size_cases {env : Env} {s s' : St}
    (h : check_cache_size env s = .ok s') :
    s' = s ∨ ∃ b, flush env b s = .ok s' := by
  simp only [check_cache_size] at h
  split at h
  · exact Or.inr ⟨_, h⟩
  · simp only [Except.ok.injEq] at h
    exact Or.inl h.symm

theorem check_cache_size_scalars {env : Env} {s s' : St}
    (h : check_cache_size env s = .ok s') :
    s'.height = s.height ∧ s'.tip = s.tip ∧ s'.tx_count = s.tx_count := by
  cases check_cache_size_cases h with
  | inl hc => rw [hc]; exact ⟨rfl, rfl, rfl⟩
  | inr hc => obtain ⟨b, hb⟩ := hc; exact flush_scalars hb

theorem cacheCheckBind {env : Env} {m s' : St}
    (h : (check_cache_size env m >>= fun t =>
      Except.ok { t with next_cache_check := t.now + 30 }) = .ok s') :
    s'.height = m.height ∧ s'.tip = m.tip ∧ s'.tx_count = m.tx_count := by
  cases hcc : check_cache_size env m with
  | error e => rw [hcc, errBind] at h; exact absurd h (by simp)
  | ok t =>
    rw [hcc, okBind] at h
    have h2 := check_cache_size_scalars hcc
    simp only [Except.ok.injEq] at h
    rw [← h]
    exact ⟨h2.1, h2.2.1, h2.2.2⟩

theorem advance_blocks_effects {env : Env} {blocks : List Block} {s s' : St}
    (h : advance_blocks env blocks s = .ok s') :
    s'.height = s.height + blocks.length ∧
    s'.tx_count = s.tx_count + sumTxs blocks := by
  simp only [advance_blocks] at h
  cases heq : advanceBlocksLoop env (min_undo_height env) blocks s.height s with
  | error e => rw [heq, errBind] at h; exact absurd h (by simp)
  | ok q =>
    rw [heq, okBind] at h
    have h1 := advanceBlocksLoop_effects blocks s.height s q heq
    split at h
    · exact absurd h (by simp)
    · split at h
      · have h2 := flush_scalars h
        have g1 : s'.height = q.1 := h2.1
        have g2 : s'.tx_count = q.2.tx_count := h2.2.2
        exact ⟨by rw [g1, h1.1], by rw [g2, h1.2.2.2.1]⟩
      · split at h
        · have h2 := cacheCheckBind h
          have g1 : s'.height = q.1 := h2.1
          have g2 : s'.tx_count = q.2.tx_count := h2.2.2
          exact ⟨by rw [g1, h1.1], by rw [g2, h1.2.2.2.1]⟩
        · simp only [Except.ok.injEq] at h
          have g1 : s'.height = q.1 := by rw [← h]
          have g2 : s'.tx_count = q.2.tx_count := by rw [← h]
          exact ⟨by rw [g1, h1.1], by rw [g2, h1.2.2.2.1]⟩

theorem check_cache_size_inv {env : Env} {s s' : St}
    (hinv : shadowInv s) (h : check_cache_size env s = .ok s') : shadowInv s' := by
  cases check_cache_size_cases h with
  | inl hc => rw [hc]; exact hinv
  | inr hc => obtain ⟨b, hb⟩ := hc; exact flush_inv hinv hb

theorem cacheCheckBind_inv {env : Env} {m s' : St} (hinv : shadowInv m)
    (h : (check_cache_size env m >>= fun t =>
      Except.ok { t with next_cache_check := t.now + 30 }) = .ok s') :
    shadowInv s' := by
  cases hcc : check_cache_size env m with
  | error e => rw [hcc, errBind] at h; exact absurd h (by simp)
  | ok t =>
    rw [hcc, okBind] at h
    have h2 := check_cache_size_inv hinv hcc
    simp only [Except.ok.injEq] at h
    rw [← h]
    exact h2

theorem advance_blocks_inv {env : Env} {blocks : List Block} {s s' : St}
    (hinv : shadowInv s) (h : advance_blocks env blocks s = .ok s') :
    shadowInv s' := by
  simp only [advance_blocks] at h
  cases heq : advanceBlocksLoop env (min_undo_height env) blocks s.height s with
  | error e => rw [heq, errBind] at h; exact absurd h (by simp)
  | ok q =>
    rw [heq, okBind] at h
    have h1 := advanceBlocksLoop_effects blocks s.height s q heq
    obtain ⟨e1, e2, e3, e4, ⟨d1, d2, d3, d4⟩⟩ := h1
    obtain ⟨i1, i2, i3, i4⟩ := hinv
    split at h
    · exact absurd h (by simp)
    · have hmidinv : shadowInv
          { q.2 with height := q.1, headers := q.2.headers ++ blocks.map (·.header),
                     tip := env.coin.headerHash ‹_› } := by
        refine ⟨?_, ?_, ?_, ?_⟩
        · show q.2.db_height ≤ q.2.fs_height
          rw [d1, d3]; exact i1
        · show q.2.fs_height ≤ q.1
          rw [d1, e1]; omega
        · show q.2.db_tx_count ≤ q.2.fs_tx_count
          rw [d2, d4]; exact i3
        · show q.2.fs_tx_count ≤ q.2.tx_count
          rw [d2, e4]; omega
      split at h
      · exact flush_inv hmidinv h
      · split at h
        · exact cacheCheckBind_inv hmidinv h
        · simp only [Except.ok.injEq] at h
          rw [← h]
          exact hmidinv

/-! ## Lemmas: backup effects -/

theorem backupSpendOutputs_core {env : Env} {th : List Nat} :
    ∀ (outs : List TxOut) (idx : Nat) (s s' : St),
    backupSpendOutputs env th outs idx s = .ok s' → eqCore s s' := by
  intro outs
  induction outs with
  | nil =>
    intro idx s s' h
    simp only [backupSpendOutputs] at h
    simp only [Except.ok.injEq] at h
    rw [← h]
    exact eqCore_refl s
  | cons o rest ih =>
    intro idx s s' h
    simp only [backupSpendOutputs] at h
    split at h
    next hashX hsc =>
      split at h
      · cases heq : spend_utxo env s th idx with
        | error e => rw [heq, errBind] at h; exact absurd h (by simp)
        | ok p =>
          rw [heq, okBind] at h
          have h2 := ih _ _ _ h
          have h3 : eqCore s p.2 := spend_utxo_core (by rw [heq])
          exact eqCore_trans h3 h2
      · exact ih _ _ _ h
    next hsc => exact ih _ _ _ h

theorem backupRestoreInputs_core :
    ∀ (ins : List TxIn) (n : Int) (u : List Nat) (s : St),
    eqCore s (backupRestoreInputs ins n u s).2 := by
  intro ins
  induction ins with
  | nil => intro n u s; exact eqCore_refl s
  | cons i rest ih =>
    intro n u s
    simp only [backupRestoreInputs]
    exact ih _ _ _

theorem backupTxsLoop_core {env : Env} {u : List Nat} :
    ∀ (txs : List (Tx × List Nat)) (n : Int) (s : St) (r : Int × St),
    backupTxsLoop env u txs n s = .ok r → eqCore s r.2 := by
  intro txs
  induction txs with
  | nil =>
    intro n s r h
    simp only [backupTxsLoop] at h
    simp only [Except.ok.injEq] at h
    rw [← h]
    exact eqCore_refl s
  | cons p rest ih =>
    intro n s r h
    obtain ⟨tx, txHash⟩ := p
    simp only [backupTxsLoop] at h
    cases heq : backupSpendOutputs env txHash tx.outputs 0 s with
    | error e => rw [heq, errBind] at h; exact absurd h (by simp)
    | ok s1 =>
      rw [heq, okBind] at h
      have h1 := backupSpendOutputs_core tx.outputs 0 s s1 heq
      split at h
      · have h2 := ih _ _ _ h
        exact eqCore_trans h1
          (eqCore_trans (backupRestoreInputs_core tx.inputs.reverse n u s1) h2)
      · have h2 := ih _ _ _ h
        exact eqCore_trans h1 h2

theorem backup_txs_effects {env : Env} {txs : List (Tx × List Nat)} {s s' : St}
    (h : backup_txs env txs s = .ok s') :
    s'.height = s.height ∧ s'.tip = s.tip ∧
    s'.tx_count = s.tx_count - txs.length ∧ eqShadow s s' := by
  simp only [backup_txs] at h
  split at h
  · exact absurd h (by simp)
  next u hu =>
    cases heq : backupTxsLoop env u txs.reverse (u.length : Int) s with
    | error e => rw [heq, errBind] at h; exact absurd h (by simp)
    | ok r =>
      rw [heq, okBind] at h
      have hc := chk_bind_ok h
      have h1 := backupTxsLoop_core txs.reverse _ s r heq
      simp only [Except.ok.injEq] at hc
      rw [← hc.2]
      exact ⟨h1.1, h1.2.1, by
        show r.2.tx_count - txs.length = s.tx_count - txs.length
        rw [h1.2.2.1], h1.2.2.2.1, h1.2.2.2.2.1, h1.2.2.2.2.2.1, h1.2.2.2.2.2.2⟩

theorem backupBlockStep_effects {env : Env} {raw : List Nat} {s s' : St}
    (h : backupBlockStep env raw s = .ok s') :
    s'.height = s.height - 1 ∧
    s'.tip = env.coin.headerPrevhash (env.coin.block raw s.height).header ∧
    s'.tx_count = s.tx_count - (env.coin.block raw s.height).transactions.length ∧
    eqShadow s s' := by
  simp only [backupBlockStep] at h
  split at h
  · exact absurd h (by simp)
  · cases heq : backup_txs env (env.coin.block raw s.height).transactions
        { s with tip := env.coin.headerPrevhash (env.coin.block raw s.height).header } with
    | error e => rw [heq, errBind] at h; exact absurd h (by simp)
    | ok s2 =>
      rw [heq, okBind] at h
      have h1 := backup_txs_effects heq
      split at h
      · exact absurd h (by simp)
      · simp only [Except.ok.injEq] at h
        rw [← h]
        have g1 : s2.height = s.height := h1.1
        have g2 : s2.tip = env.coin.headerPrevhash (env.coin.block raw s.height).header :=
          h1.2.1
        have g3 : s2.tx_count =
            s.tx_count - (env.coin.block raw s.height).transactions.length := h1.2.2.1
        have g4 : s2.fs_height = s.fs_height := h1.2.2.2.1
        have g5 : s2.fs_tx_count = s.fs_tx_count := h1.2.2.2.2.1
        have g6 : s2.db_height = s.db_height := h1.2.2.2.2.2.1
        have g7 : s2.db_tx_count = s.db_tx_count := h1.2.2.2.2.2.2
        exact ⟨by show s2.height - 1 = s.height - 1; rw [g1], g2, g3, g4, g5, g6, g7⟩

theorem sumTxs_reverse (l : List Block) : sumTxs l.reverse = sumTxs l := by
  simp [sumTxs, List.map_reverse, List.sum_reverse]

theorem backupBlocksLoop_effects {env : Env} :
    ∀ (bs : List Block) (s : St) (s' : St),
    (∀ b ∈ bs, ∀ hgt, env.coin.block b.raw hgt = b) →
    backupBlocksLoop env (bs.map (·.raw)) s = .ok s' →
    bs.length ≤ s.height → sumTxs bs ≤ s.tx_count →
    s'.height = s.height - bs.length ∧
    s'.tx_count = s.tx_count - sumTxs bs ∧
    s'.tip = ((bs.getLast?).map (fun b => env.coin.headerPrevhash b.header)).getD s.tip ∧
    eqShadow s s' := by
  intro bs
  induction bs with
  | nil =>
    intro s s' hd h hlen htx
    simp only [List.map_nil, backupBlocksLoop] at h
    simp only [Except.ok.injEq] at h
    rw [← h]
    exact ⟨by simp, by simp [sumTxs], by simp, ⟨rfl, rfl, rfl, rfl⟩⟩
  | cons b rest ih =>
    intro s s' hd h hlen htx
    simp only [List.map_cons, backupBlocksLoop] at h
    cases heq : backupBlockStep env b.raw s with
    | error e => rw [heq, errBind] at h; exact absurd h (by simp)
    | ok s1 =>
      rw [heq, okBind] at h
      have hstep := backupBlockStep_effects heq
      rw [hd b (List.mem_cons_self b rest) s.height] at hstep
      have hlen1 : rest.length ≤ s1.height := by
        rw [hstep.1]
        have := List.length_cons b rest ▸ hlen
        omega
      have htx1 : sumTxs rest ≤ s1.tx_count := by
        rw [hstep.2.2.1]
        have := sumTxs_cons b rest ▸ htx
        omega
      have h2 := ih s1 s' (fun x hx hgt => hd x (List.mem_cons_of_mem b hx) hgt)
        h hlen1 htx1
      refine ⟨?_, ?_, ?_, ?_⟩
      · rw [h2.1, hstep.1, List.length_cons]
        have := List.length_cons b rest ▸ hlen
        omega
      · rw [h2.2.1, hstep.2.2.1, sumTxs_cons]
        have := sumTxs_cons b rest ▸ htx
        omega
      · cases rest with
        | nil =>
          have h3 := h2.2.2.1
          simp only [List.getLast?_nil, Option.map_none, Option.getD_none] at h3
          rw [h3, hstep.2.1]
          simp
        | cons c cs =>
          have h3 := h2.2.2.1
          rw [List.getLast?_cons_cons]
          cases hg : (c :: cs).getLast? with
          | none =>
            rw [List.getLast?_eq_none_iff] at hg
            exact absurd hg (by simp)
          | some x =>
            rw [hg] at h3
            simpa using h3
      · obtain ⟨a1, a2, a3, a4⟩ := h2.2.2.2
        obtain ⟨b1, b2, b3, b4⟩ := hstep.2.2.2
        exact ⟨a1.trans b1, a2.trans b2, a3.trans b3, a4.trans b4⟩

theorem backup_flush_scalars {env : Env} {s s' : St}
    (h : backup_flush env s = .ok s') :
    s'.height = s.height ∧ s'.tip = s.tip ∧ s'.tx_count = s.tx_count := by
  simp only [backup_flush] at h
  have h1 := chk_bind_ok h
  have h2 := chk_bind_ok h1.2
  have h3 := chk_bind_ok h2.2
  have h4 := chk_bind_ok h3.2
  simp only [Except.ok.injEq] at h4
  rw [← h4.2]
  exact ⟨rfl, rfl, rfl⟩

theorem backup_blocks_parts {env : Env} {raws : List (List Nat)} {s s' : St}
    (h : backup_blocks env raws s = .ok s') :
    flushedPred s ∧ raws.length ≤ s.height ∧
    ∃ sMid, backupBlocksLoop env raws s = .ok sMid ∧
      backup_flush env sMid = .ok s' := by
  simp only [backup_blocks] at h
  cases ha : assert_flushed s with
  | error e => rw [ha, errBind] at h; exact absurd h (by simp)
  | ok u =>
    rw [ha, okBind] at h
    have hfl := assert_flushed_ok_iff.mp (by cases u; exact ha)
    have h1 := chk_bind_ok h
    cases hl : backupBlocksLoop env raws s with
    | error e => rw [hl, errBind] at h1; exact absurd h1.2 (by simp)
    | ok sMid =>
      rw [hl, okBind] at h1
      exact ⟨hfl, h1.1, sMid, rfl, h1.2⟩

/-! ## Claim C1: advance/backup round trip -/

set_option maxRecDepth 8000

/-- Claim C1, counterexample. The round trip is run in full on the
concrete one-block chain: advancing (with its caught-up full flush)
and then immediately backing the same block up restores `height`,
`tx_count` and `tip`, but the KV store is not byte-identical to its
pre-advance contents — the undo record written by the flush survives
the backup, so the claimed identity of the persisted store fails. -/
theorem C1_roundtrip_kv_cex :
    advance_blocks c1Env [c1Block] c1S0 = .ok c1S1 ∧
    backup_blocks c1Env [c1Block.raw] c1S1 = .ok c1S3 ∧
    c1S3.height = c1S0.height ∧ c1S3.tx_count = c1S0.tx_count ∧ c1S3.tip = c1S0.tip ∧
    kvGet c1S3.utxo_db (undoKey 2) = some [] ∧
    kvGet c1S0.utxo_db (undoKey 2) = none ∧
    c1S3.utxo_db ≠ c1S0.utxo_db := by decide

/-- Claim C1 (amended): advancing any non-empty block batch that chains
onto the current tip and then immediately backing up the same blocks
(in decreasing height order) restores the in-memory `height`,
`tx_count` and `tip` to their pre-advance values; the KV store is not
byte-identical, because the undo records and chain-state accounting
written by the intervening flush persist (see the counterexample). -/
theorem C1_roundtrip_scalars {env : Env} {blocks : List Block} {s0 s1 s2 : St}
    (hne : blocks ≠ [])
    (hdec : ∀ b ∈ blocks, ∀ hgt, env.coin.block b.raw hgt = b)
    (hlink : env.coin.headerPrevhash (blocks.head hne).header = s0.tip)
    (hadv : advance_blocks env blocks s0 = .ok s1)
    (hback : backup_blocks env (blocks.reverse.map (·.raw)) s1 = .ok s2) :
    s2.height = s0.height ∧ s2.tx_count = s0.tx_count ∧ s2.tip = s0.tip := by
  have ha := advance_blocks_effects hadv
  obtain ⟨hfl, hlen, sMid, hloop, hbf⟩ := backup_blocks_parts hback
  have hdrev : ∀ b ∈ blocks.reverse, ∀ hgt, env.coin.block b.raw hgt = b :=
    fun b hb hgt => hdec b (List.mem_reverse.mp hb) hgt
  have hlen2 : blocks.reverse.length ≤ s1.height := by
    rw [List.length_reverse, ha.1]; omega
  have htx2 : sumTxs blocks.reverse ≤ s1.tx_count := by
    rw [sumTxs_reverse, ha.2]; omega
  have hl := backupBlocksLoop_effects blocks.reverse s1 sMid hdrev hloop hlen2 htx2
  have hbfs := backup_flush_scalars hbf
  refine ⟨?_, ?_, ?_⟩
  · rw [hbfs.1, hl.1, List.length_reverse, ha.1]; omega
  · rw [hbfs.2.2, hl.2.1, sumTxs_reverse, ha.2]; omega
  · rw [hbfs.2.1, hl.2.2.1, List.getLast?_reverse]
    cases blocks with
    | nil => exact absurd rfl hne
    | cons b bs => simpa using hlink

/-- Witness for the amended claim C1 at the concrete one-block chain. -/
theorem C1_roundtrip_scalars_witness :
    c1S3.height = c1S0.height ∧ c1S3.tx_count = c1S0.tx_count ∧ c1S3.tip = c1S0.tip :=
  @C1_roundtrip_scalars c1Env [c1Block] c1S0 c1S1 c1S3 (by simp)
    (by intro b hb hgt
        simp only [List.mem_singleton] at hb
        subst hb
        simp [c1Env, c1Coin])
    (by decide) (by decide) (by decide)

/-! ## Claim C2: shadow-state ordering invariant -/

/-- Claim C2, counterexample. Between the flush ending `advance_blocks`
and the `backup_flush` ending `backup_blocks` there is a reachable
state — after one backed-up block — where `db_height` exceeds the
in-memory `height`, so `db_height ≤ height` does not hold at every
point between flushes. Moreover a successful `flush(False)` leaves
`db_height` strictly behind, so not every successful flush equalizes
the three copies. -/
theorem C2_shadow_inv_cex :
    advance_blocks c1Env [c1Block] c1S0 = .ok c1S1 ∧
    backupBlockStep c1Env c1Block.raw c1S1 = .ok c1SMid ∧
    c1SMid.db_height = 2 ∧ c1SMid.height = 1 ∧
    ¬ (c1SMid.db_height ≤ c1SMid.height) ∧
    flush c1Env false c5S = .ok c5Sf ∧
    c5Sf.db_height = 1 ∧ c5Sf.height = 2 := by decide

/-- Claim C2 (amended): in forward operation the ordering
`db_* ≤ fs_* ≤ *` holds along the height and tx-count axes —
`advance_blocks` (including any flush it performs) preserves it — and
after a successful full flush (`flush_utxos = True`) the three copies
of each axis are equal. (There is no filesystem copy of the tip; and
during backup the in-memory height drops below `db_height` until
`backup_flush` restores equality, while `flush(False)` equalizes only
the `fs` copies.) -/
theorem C2_forward_shadow_inv {env : Env} {blocks : List Block} {s s' t t' : St} :
    (shadowInv s → advance_blocks env blocks s = .ok s' → shadowInv s') ∧
    (flush env true t = .ok t' →
      t'.db_height = t'.fs_height ∧ t'.fs_height = t'.height ∧
      t'.db_tx_count = t'.fs_tx_count ∧ t'.fs_tx_count = t'.tx_count) := by
  constructor
  · intro hinv h
    exact advance_blocks_inv hinv h
  · intro h
    have hf := flush_true_flushed h
    exact ⟨hf.2.2.2.1.symm, hf.2.2.1.symm, hf.2.1.symm, hf.1.symm⟩

/-- Witness for the amended claim C2: the invariant survives the
concrete advance, and the concrete full flush equalizes the copies. -/
theorem C2_forward_shadow_inv_witness :
    shadowInv c1S1 ∧
    (c5S'.db_height = c5S'.fs_height ∧ c5S'.fs_height = c5S'.height ∧
     c5S'.db_tx_count = c5S'.fs_tx_count ∧ c5S'.fs_tx_count = c5S'.tx_count) :=
  ⟨(@C2_forward_shadow_inv c1Env [c1Block] c1S0 c1S1 c1S0 c1S0).1 (by decide) (by decide),
   (@C2_forward_shadow_inv c1Env [] c1S0 c1S0 c5S c5S').2 (by decide)⟩

/-! ## Claim C5: flush idempotence -/

/-- Claim C5: after a successful `flush(True)` — with no intervening
advance, so `height = db_height` in the resulting state — a second
`flush(True)` passes `assert_flushed` and returns the state
unchanged. -/
theorem C5_flush_idempotent {env : Env} {s s' : St}
    (h : flush env true s = .ok s') : flush env true s' = .ok s' := by
  have hf := flush_true_flushed h
  have hh : s'.height = s'.db_height := by rw [hf.2.2.1, hf.2.2.2.1]
  have ha : assert_flushed s' = .ok () := assert_flushed_ok_iff.mpr hf
  simp only [flush]
  rw [if_pos hh, ha, okBind]

/-- Witness for claim C5 at the concrete dirty state. -/
theorem C5_flush_idempotent_witness : flush c1Env true c5S' = .ok c5S' :=
  @C5_flush_idempotent c1Env c5S c5S' (by decide)

/-! ## Claim C9: backup header verification -/

/-- Claim C9: each iteration of `backup_blocks` verifies that the
decoded block's header hash equals the current tip and raises a fatal
`ChainError` before modifying any state on mismatch; on success the
tip becomes the block's previous-header hash and the height is
decremented by one. -/
theorem C9_backup_check {env : Env} {raw : List Nat} {s s' : St} :
    (env.coin.headerHash (env.coin.block raw s.height).header ≠ s.tip →
      backupBlockStep env raw s = .error .chain) ∧
    (backupBlockStep env raw s = .ok s' →
      s'.tip = env.coin.headerPrevhash (env.coin.block raw s.height).header ∧
      s'.height = s.height - 1) := by
  constructor
  · intro hne
    simp only [backupBlockStep]
    rw [if_pos hne]
  · intro h
    have he := backupBlockStep_effects h
    exact ⟨he.2.1, he.1⟩

/-- Witness for claim C9: the mismatching tip raises, the matching tip
moves the tip to the previous hash and decrements the height. -/
theorem C9_backup_check_witness :
    backupBlockStep c1Env c1Block.raw c1S0 = .error .chain ∧
    (c1SMid.tip = c1Env.coin.headerPrevhash
        (c1Env.coin.block c1Block.raw c1S1.height).header ∧
     c1SMid.height = c1S1.height - 1) :=
  ⟨(@C9_backup_check c1Env c1Block.raw c1S0 c1S0).1 (by decide),
   (@C9_backup_check c1Env c1Block.raw c1S1 c1SMid).2 (by decide)⟩

/-! ## Lemmas: the spend candidate loop as a `find?` -/

theorem spendLoop_find {env : Env} {txHash : List Nat} {ncand : Nat} {db : KV} :
    ∀ cands : List (List Nat × List Nat),
    (∀ c ∈ cands, 1 < ncand →
      (env.fsTxHash (leToNat (c.1.drop (c.1.length - 4)))).1 ≠ none) →
    spendLoop env txHash ncand db cands =
      .ok ((cands.find? (spendPass env txHash ncand db)).map (spendHit db)) := by
  intro cands
  induction cands with
  | nil => intro _; simp [spendLoop]
  | cons c rest ih =>
    intro htot
    obtain ⟨hk, hx⟩ := c
    have htotr : ∀ x ∈ rest, 1 < ncand →
        (env.fsTxHash (leToNat (x.1.drop (x.1.length - 4)))).1 ≠ none :=
      fun x hxm => htot x (List.mem_cons_of_mem _ hxm)
    simp only [spendLoop]
    by_cases hn : 1 < ncand
    · rw [if_pos hn]
      split
      next hfs => exact absurd hfs (htot (hk, hx) (List.mem_cons_self _ _) hn)
      next hsh hfs =>
        by_cases he : hsh = txHash
        · subst he
          rw [if_pos rfl]
          cases htry : spendTryU db hk hx (hk.drop (hk.length - 4)) with
          | some r =>
            have hpass : spendPass env hsh ncand db (hk, hx) = true := by
              simp [spendPass, hfs, htry]
            rw [List.find?_cons_of_pos _ hpass]
            simp [spendHit, htry]
          | none =>
            have hpass : spendPass env hsh ncand db (hk, hx) = false := by
              simp [spendPass, hfs, htry]
            rw [List.find?_cons_of_neg _ (by simp [hpass]), ih htotr]
        · rw [if_neg he]
          have hpass : spendPass env txHash ncand db (hk, hx) = false := by
            simp [spendPass, hfs, he, Nat.not_le.mpr hn]
          rw [List.find?_cons_of_neg _ (by simp [hpass]), ih htotr]
    · rw [if_neg hn]
      cases htry : spendTryU db hk hx (hk.drop (hk.length - 4)) with
      | some r =>
        have hpass : spendPass env txHash ncand db (hk, hx) = true := by
          simp [spendPass, htry, Nat.not_lt.mp hn]
        rw [List.find?_cons_of_pos _ hpass]
        simp [spendHit, htry]
      | none =>
        have hpass : spendPass env txHash ncand db (hk, hx) = false := by
          simp [spendPass, htry]
        rw [List.find?_cons_of_neg _ (by simp [hpass]), ih htotr]

theorem assocPop_none {m : List (List Nat × List Nat)} {k : List Nat}
    (h : m.find? (fun e => e.1 = k) = none) : assocPop m k = (none, m) := by
  unfold assocPop
  rw [h]

theorem spendFromDB_some {env : Env} {s : St} {txHash ip : List Nat}
    {c : List Nat × List Nat}
    (htot : fsTotal env (kvIterPre s.utxo_db (104 :: (txHash.take 4 ++ ip))).length
      (kvIterPre s.utxo_db (104 :: (txHash.take 4 ++ ip))))
    (hfind : (kvIterPre s.utxo_db (104 :: (txHash.take 4 ++ ip))).find?
      (spendPass env txHash
        (kvIterPre s.utxo_db (104 :: (txHash.take 4 ++ ip))).length s.utxo_db)
      = some c) :
    spendFromDB env s txHash ip =
      .ok ((spendHit s.utxo_db c).2.2,
        { s with db_deletes := s.db_deletes ++
            [(spendHit s.utxo_db c).1, (spendHit s.utxo_db c).2.1] }) := by
  simp only [spendFromDB]
  rw [spendLoop_find _ htot, hfind]
  rfl

theorem spendFromDB_none {env : Env} {s : St} {txHash ip : List Nat}
    (htot : fsTotal env (kvIterPre s.utxo_db (104 :: (txHash.take 4 ++ ip))).length
      (kvIterPre s.utxo_db (104 :: (txHash.take 4 ++ ip))))
    (hfind : (kvIterPre s.utxo_db (104 :: (txHash.take 4 ++ ip))).find?
      (spendPass env txHash
        (kvIterPre s.utxo_db (104 :: (txHash.take 4 ++ ip))).length s.utxo_db)
      = none) :
    spendFromDB env s txHash ip = .error .chain := by
  simp only [spendFromDB]
  rw [spendLoop_find _ htot, hfind]
  rfl

theorem spend_utxo_cache_miss {env : Env} {s : St} {txHash : List Nat} {txIdx : Nat}
    (hmiss : s.utxo_cache.find? (fun e => e.1 = txHash ++ le16 txIdx) = none) :
    spend_utxo env s txHash txIdx = spendFromDB env s txHash (le16 txIdx) := by
  simp only [spend_utxo]
  rw [assocPop_none hmiss]

theorem spend_utxo_cache_hit {env : Env} {s : St} {txHash : List Nat} {txIdx : Nat}
    {e : List Nat × List Nat}
    (hc : s.utxo_cache.find? (fun x => x.1 = txHash ++ le16 txIdx) = some e) :
    spend_utxo env s txHash txIdx =
      if e.2 ≠ [] then
        .ok (e.2, { s with utxo_cache :=
          s.utxo_cache.filter (fun e' => ¬ e'.1 = txHash ++ le16 txIdx) })
      else spendFromDB env
        { s with utxo_cache :=
          s.utxo_cache.filter (fun e' => ¬ e'.1 = txHash ++ le16 txIdx) }
        txHash (le16 txIdx) := by
  simp only [spend_utxo]
  rw [show assocPop s.utxo_cache (txHash ++ le16 txIdx) =
    (some e.2, s.utxo_cache.filter (fun e' => ¬ e'.1 = txHash ++ le16 txIdx)) from by
      unfold assocPop; rw [hc]]

/-! ## Claim C3: spend_utxo on a cache miss -/

/-- Claim C3: on a cache miss `spend_utxo` scans the `h` table under
the prefix `'h' ‖ tx_hash[0..4] ‖ idx_u16_le`; the candidate it uses is
the first passing `spendPass` — which compares `fs_tx_hash` of the
candidate's trailing ordinal against the full hash exactly when more
than one candidate exists, and demands the companion `u` entry — and
it returns the 23-byte value `fingerprint ‖ tx_ordinal ‖ amount`,
appending the `h` and `u` keys to `db_deletes`. -/
theorem C3_spend_utxo_db_path {env : Env} {s : St} {txHash : List Nat} {txIdx : Nat}
    {hk hx uv : List Nat}
    (hmiss : s.utxo_cache.find? (fun e => e.1 = txHash ++ le16 txIdx) = none)
    (htot : fsTotal env (kvIterPre s.utxo_db (hPre txHash txIdx)).length
      (kvIterPre s.utxo_db (hPre txHash txIdx)))
    (hfind : (kvIterPre s.utxo_db (hPre txHash txIdx)).find?
      (spendPass env txHash (kvIterPre s.utxo_db (hPre txHash txIdx)).length s.utxo_db)
      = some (hk, hx))
    (huv : kvGet s.utxo_db (117 :: (hx ++ hk.drop (hk.length - 6))) = some uv) :
    spend_utxo env s txHash txIdx =
      .ok (hx ++ hk.drop (hk.length - 4) ++ uv,
        { s with db_deletes := s.db_deletes ++
            [hk, 117 :: (hx ++ hk.drop (hk.length - 6))] }) := by
  have hpassed := List.find?_some hfind
  have htry : spendTryU s.utxo_db hk hx (hk.drop (hk.length - 4)) =
      some (hk, 117 :: (hx ++ hk.drop (hk.length - 6)),
        hx ++ hk.drop (hk.length - 4) ++ uv) := by
    have hsome : (spendTryU s.utxo_db hk hx (hk.drop (hk.length - 4))).isSome := by
      have := (Bool.and_eq_true _ _).mp hpassed
      exact this.2
    simp only [spendTryU, huv] at hsome ⊢
    by_cases hz : uv = []
    · rw [if_neg (by simp [hz])] at hsome
      exact absurd hsome (by simp)
    · rw [if_pos hz]
  rw [spend_utxo_cache_miss hmiss, spendFromDB_some htot hfind]
  rw [show spendHit s.utxo_db (hk, hx) =
    (hk, 117 :: (hx ++ hk.drop (hk.length - 6)),
      hx ++ hk.drop (hk.length - 4) ++ uv) from by simp [spendHit, htry]]

/-- Witness for claim C3 at the concrete colliding pair: the spend of
transaction B resolves past A's entry to B's, returns B's value and
deletes B's keys. -/
theorem C3_spend_utxo_db_path_witness :
    spend_utxo c3Env c3St c3TxHashB 0 =
      .ok (c3HashXB ++ c3HkB.drop (c3HkB.length - 4) ++ le64 200,
        { c3St with db_deletes := c3St.db_deletes ++
            [c3HkB, 117 :: (c3HashXB ++ c3HkB.drop (c3HkB.length - 6))] }) :=
  @C3_spend_utxo_db_path c3Env c3St c3TxHashB 0 c3HkB c3HashXB (le64 200)
    (by decide) (by decide) (by decide) (by decide)

/-! ## Claim C4: when spend_utxo raises -/

/-- Claim C4, counterexample. A matching `h`-table entry for
`(tx_hash, idx)` exists (its key is found by the very scan prefix the
claim describes) but its companion `u` entry is missing, and
`spend_utxo` raises `ChainError` anyway — so "raises iff no matching
entry exists in either the cache or the `h`/`u` tables" fails in the
only-if direction. -/
theorem C4_missing_iff_cex :
    spend_utxo c3Env c4St c3TxHashA 0 = .error .chain ∧
    kvGet c4St.utxo_db c3HkA = some c3HashXA ∧
    bytesStart (hPre c3TxHashA 0) c3HkA = true := by decide

/-- Claim C4 (amended): assuming `fs_tx_hash` resolves every candidate,
`spend_utxo` raises the fatal `ChainError` iff the cache holds no
(non-empty) value for `(tx_hash, idx)` and no `h`-table candidate
passes the loop's filter — i.e. no candidate that (when more than one
candidate exists) maps back to the full `tx_hash` also has a present,
non-empty companion `u` entry. In particular a matching `h` entry
without its `u` companion raises, and a single colliding candidate of
a different transaction does not. -/
theorem C4_missing_iff {env : Env} {s : St} {txHash : List Nat} {txIdx : Nat}
    (htot : fsTotal env (kvIterPre s.utxo_db (hPre txHash txIdx)).length
      (kvIterPre s.utxo_db (hPre txHash txIdx))) :
    spend_utxo env s txHash txIdx = .error .chain ↔
      (cacheFound s (txHash ++ le16 txIdx) = [] ∧
       (kvIterPre s.utxo_db (hPre txHash txIdx)).find?
         (spendPass env txHash (kvIterPre s.utxo_db (hPre txHash txIdx)).length
           s.utxo_db) = none) := by
  have hdb : ∀ s2 : St, s2.utxo_db = s.utxo_db →
      (spendFromDB env s2 txHash (le16 txIdx) = .error .chain ↔
        (kvIterPre s.utxo_db (hPre txHash txIdx)).find?
         (spendPass env txHash (kvIterPre s.utxo_db (hPre txHash txIdx)).length
           s.utxo_db) = none) := by
    intro s2 hs2
    constructor
    · intro h
      cases hf : (kvIterPre s.utxo_db (hPre txHash txIdx)).find?
          (spendPass env txHash (kvIterPre s.utxo_db (hPre txHash txIdx)).length
            s.utxo_db) with
      | none => rfl
      | some c =>
        rw [spendFromDB_some (s := s2) (by rw [hs2]; exact htot)
          (by rw [hs2]; exact hf)] at h
        exact absurd h (by simp)
    · intro hf
      exact spendFromDB_none (s := s2) (by rw [hs2]; exact htot) (by rw [hs2]; exact hf)
  cases hc : s.utxo_cache.find? (fun e => e.1 = txHash ++ le16 txIdx) with
  | none =>
    rw [spend_utxo_cache_miss hc]
    have h1 := hdb s rfl
    constructor
    · intro h
      exact ⟨by simp [cacheFound, hc], h1.mp h⟩
    · intro h
      exact h1.mpr h.2
  | some e =>
    rw [spend_utxo_cache_hit hc]
    by_cases hz : e.2 = []
    · rw [if_neg (by simp [hz])]
      have hfdb := hdb { s with utxo_cache := s.utxo_cache.filter (fun e' => ¬ e'.1 = txHash ++ le16 txIdx) } rfl
      constructor
      · intro h
        exact ⟨by simp [cacheFound, hc, hz], hfdb.mp h⟩
      · intro h
        exact hfdb.mpr h.2
    · rw [if_pos hz]
      constructor
      · intro h
        exact absurd h (by simp)
      · intro h
        have hcf : cacheFound s (txHash ++ le16 txIdx) = e.2 := by
          simp [cacheFound, hc]
        rw [hcf] at h
        exact absurd h.1 hz

/-- Witness for the amended claim C4 at the `u`-less concrete store:
the raise coincides with an empty cache result and no passing
candidate. -/
theorem C4_missing_iff_witness :
    cacheFound c4St (c3TxHashA ++ le16 0) = [] ∧
    (kvIterPre c4St.utxo_db (hPre c3TxHashA 0)).find?
      (spendPass c3Env c3TxHashA (kvIterPre c4St.utxo_db (hPre c3TxHashA 0)).length
        c4St.utxo_db) = none :=
  (@C4_missing_iff c3Env c4St c3TxHashA 0 (by decide)).mp (by decide)

/-! ## Claim C10: single colliding candidate is spent unchecked -/

/-- Claim C10: when the cache misses and the `h`-table prefix scan
yields exactly one candidate, `spend_utxo` never consults
`fs_tx_hash` — even when the candidate's ordinal maps to a different
transaction's hash (`hother`, `hne`), the candidate is spent: its `u`
value is returned and both its keys are queued for deletion, with no
`ChainError`. -/
theorem C10_single_candidate_no_check {env : Env} {s : St}
    {txHash otherHash : List Nat} {txIdx : Nat} {hk hx uv : List Nat}
    (hmiss : s.utxo_cache.find? (fun e => e.1 = txHash ++ le16 txIdx) = none)
    (hcands : kvIterPre s.utxo_db (hPre txHash txIdx) = [(hk, hx)])
    (_hother : (env.fsTxHash (leToNat (hk.drop (hk.length - 4)))).1 = some otherHash)
    (_hne : otherHash ≠ txHash)
    (huv : kvGet s.utxo_db (117 :: (hx ++ hk.drop (hk.length - 6))) = some uv)
    (hnz : uv ≠ []) :
    spend_utxo env s txHash txIdx =
      .ok (hx ++ hk.drop (hk.length - 4) ++ uv,
        { s with db_deletes := s.db_deletes ++
            [hk, 117 :: (hx ++ hk.drop (hk.length - 6))] }) := by
  have htry : spendTryU s.utxo_db hk hx (hk.drop (hk.length - 4)) =
      some (hk, 117 :: (hx ++ hk.drop (hk.length - 6)),
        hx ++ hk.drop (hk.length - 4) ++ uv) := by
    simp [spendTryU, huv, hnz]
  rw [spend_utxo_cache_miss hmiss]
  simp only [spendFromDB]
  rw [show (104 :: (txHash.take 4 ++ le16 txIdx)) = hPre txHash txIdx from rfl]
  rw [hcands]
  simp only [spendLoop, List.length_singleton, htry]
  rw [if_neg (by omega)]

/-- Witness for claim C10: transaction B's input, colliding with stored
transaction A alone, silently spends A's UTXO. -/
theorem C10_single_candidate_no_check_witness :
    spend_utxo c3Env c10St c3TxHashB 0 =
      .ok (c3HashXA ++ c3HkA.drop (c3HkA.length - 4) ++ le64 100,
        { c10St with db_deletes := c10St.db_deletes ++
            [c3HkA, 117 :: (c3HashXA ++ c3HkA.drop (c3HkA.length - 6))] }) :=
  @C10_single_candidate_no_check c3Env c10St c3TxHashB c3TxHashA 0 c3HkA c3HashXA
    (le64 100) (by decide) (by decide) (by decide) (by decide) (by decide) (by decide)

/-! ## Claim C6: cache-size thresholds -/

theorem c6_general (l : List (List Nat × List Nat)) (hl : l.length = 23903) :
    4 * (c6Env.cacheMB * 1000000) < 5 * (205 * (c6StOf l).utxo_cache.length) ∧
    check_cache_size c6Env (c6StOf l) = .ok (c6StOf l) ∧
    (c6StOf l).utxo_cache ≠ [] ∧
    (c6StOf l).height ≠ (c6StOf l).db_height := by
  have hcache : (c6StOf l).utxo_cache = l := rfl
  refine ⟨?_, ?_, ?_, ?_⟩
  · rw [hcache, hl]
    show 4 * (5 * 1000000) < 5 * (205 * 23903)
    norm_num
  · simp only [check_cache_size, hcache, hl]
    rw [show (c6StOf l).db_deletes = [] from rfl,
      show (c6StOf l).history.unflushedSize = 0 from rfl,
      show (c6StOf l).tx_count = 1 from rfl, show (c6StOf l).fs_tx_count = 1 from rfl,
      show (c6StOf l).height = 2 from rfl, show (c6StOf l).fs_height = 2 from rfl,
      show c6Env.cacheMB = 5 from rfl]
    norm_num
  · rw [hcache]
    intro hcon
    rw [hcon] at hl
    simp at hl
  · show (2 : Nat) ≠ 1
    norm_num

/-- Claim C6, counterexample. A state whose estimated UTXO memory
(23,903 cache entries × 205 B = 4,900,115 B) exceeds 80% of the 5 MB
budget (4,000,000 B) — also in integer megabytes, 4 ≥ 5·4/5 — yet
`check_cache_size` performs no flush at all: the state comes back
unchanged, cache and all, with `height ≠ db_height`, because the code
only flushes when `utxo_MB + hist_MB ≥ cache_MB` or
`hist_MB ≥ cache_MB // 5`, neither of which holds here. -/
theorem C6_cache_threshold_cex :
    4 * (c6Env.cacheMB * 1000000) < 5 * (205 * (c6StOf c6Cache).utxo_cache.length) ∧
    check_cache_size c6Env (c6StOf c6Cache) = .ok (c6StOf c6Cache) ∧
    (c6StOf c6Cache).utxo_cache ≠ [] ∧
    (c6StOf c6Cache).height ≠ (c6StOf c6Cache).db_height :=
  c6_general c6Cache (by unfold c6Cache; rw [List.length_map, List.length_range])

/-- Claim C6 (amended): `check_cache_size` flushes iff the integer-MB
estimates satisfy `utxo_MB + hist_MB ≥ cache_MB` or
`hist_MB ≥ cache_MB / 5` (where `utxo_MB` is
`(205·|utxo_cache| + 57·|db_deletes|) / 10⁶` and `hist_MB` adds the
history footprint and the tx-hash estimate), and that flush carries
`flush_utxos = true` iff `utxo_MB ≥ cache_MB·4/5`; otherwise it is a
no-op. `specCacheTrigger` restates these thresholds from the amended
claim. -/
theorem C6_check_cache_size_spec (env : Env) (s : St) :
    check_cache_size env s =
      match specCacheTrigger env s with
      | some b => flush env b s
      | none => .ok s := by
  simp only [check_cache_size, specCacheTrigger]
  rw [show s.db_deletes.length * 57 + s.utxo_cache.length * 205 =
    s.utxo_cache.length * 205 + s.db_deletes.length * 57 from Nat.add_comm _ _]
  split
  next hcnd => rfl
  next hcnd => rfl

/-! ## Claim C7: the fork-point search -/

theorem diffPosGo_shift :
    ∀ (l1 l2 : List (List Nat)) (n : Nat),
    diffPosGo l1 l2 n = (diffPosGo l1 l2 0).map (n + ·) := by
  intro l1
  induction l1 with
  | nil => intro l2 n; cases l2 <;> simp [diffPosGo]
  | cons a as iha =>
    intro l2 n
    cases l2 with
    | nil => simp [diffPosGo]
    | cons b bs =>
      by_cases hab : a = b
      · simp only [diffPosGo, hab, ne_eq, not_true_eq_false, if_false]
        rw [iha bs (n + 1), iha bs 1]
        cases hbase : diffPosGo as bs 0
        · simp
        · simp
          omega
      · simp [diffPosGo, hab]

theorem diffPosGo_lt :
    ∀ (l1 l2 : List (List Nat)) (k : Nat),
    diffPosGo l1 l2 0 = some k → k < l1.length := by
  intro l1
  induction l1 with
  | nil => intro l2 k h; cases l2 <;> simp [diffPosGo] at h
  | cons a as iha =>
    intro l2 k h
    cases l2 with
    | nil => simp [diffPosGo] at h
    | cons b bs =>
      by_cases hab : a = b
      · rw [show diffPosGo (a :: as) (b :: bs) 0 = diffPosGo as bs 1 from by
          simp [diffPosGo, hab]] at h
        rw [diffPosGo_shift as bs 1] at h
        cases hbase : diffPosGo as bs 0 with
        | none => rw [hbase] at h; simp at h
        | some k' =>
          rw [hbase] at h
          simp at h
          have := iha bs k' hbase
          simp only [List.length_cons]
          omega
      · rw [show diffPosGo (a :: as) (b :: bs) 0 = some 0 from by
          simp [diffPosGo, hab]] at h
        simp at h
        simp [← h]

theorem diff_pos_le (l1 l2 : List (List Nat)) : diff_pos l1 l2 l1.length ≤ l1.length := by
  unfold diff_pos
  cases hbase : diffPosGo l1 l2 0 with
  | none => simp
  | some k => simpa using le_of_lt (diffPosGo_lt l1 l2 k hbase)

theorem diff_pos_eq_commonPreLen :
    ∀ (l1 l2 : List (List Nat)), l1.length = l2.length →
    diff_pos l1 l2 l1.length = commonPreLen l1 l2 := by
  intro l1
  induction l1 with
  | nil =>
    intro l2 h
    cases l2 with
    | nil => simp [diff_pos, diffPosGo, commonPreLen]
    | cons b bs => simp at h
  | cons a as iha =>
    intro l2 h
    cases l2 with
    | nil => simp at h
    | cons b bs =>
      simp only [List.length_cons] at h
      have h' : as.length = bs.length := by omega
      by_cases hab : a = b
      · have hch : commonPreLen (a :: as) (b :: bs) = commonPreLen as bs + 1 := by
          simp [commonPreLen, hab]
        have hdh : diffPosGo (a :: as) (b :: bs) 0 = diffPosGo as bs 1 := by
          simp [diffPosGo, hab]
        have hind := iha bs h'
        unfold diff_pos at hind ⊢
        rw [hch, hdh, diffPosGo_shift as bs 1]
        cases hbase : diffPosGo as bs 0 with
        | none =>
          rw [hbase] at hind
          simp at hind ⊢
          omega
        | some k =>
          rw [hbase] at hind
          simp at hind ⊢
          omega
      · simp [diff_pos, diffPosGo, commonPreLen, hab]

theorem reorgSearchLoop_eq_spec_fuel (env : Env) :
    ∀ (k : Nat) (start : Int) (cm1 : Nat), start.toNat ≤ k →
    reorgSearchLoop env start cm1 = specForkSearch env start cm1 := by
  intro k
  induction k with
  | zero =>
    intro start cm1 hk
    have hs : ¬ 0 < start := by omega
    rw [reorgSearchLoop, specForkSearch, dif_neg hs, dif_neg hs]
  | succ k ihk =>
    intro start cm1 hk
    by_cases hs : 0 < start
    · rw [reorgSearchLoop, specForkSearch, dif_pos hs, dif_pos hs]
      dsimp only
      have hlen : (fs_block_hashes env start (cm1 + 1)).length =
          (daemon_block_hex_hashes env start (cm1 + 1)).length := by
        simp [fs_block_hashes, daemon_block_hex_hashes]
      rw [diff_pos_eq_commonPreLen _ _ hlen]
      split
      · rfl
      · refine ihk _ _ ?_
        have h1 : 1 ≤ min ((cm1 + 1) * 2) start.toNat := by
          have : 1 ≤ start.toNat := by omega
          omega
        have h2 := Int.toNat_of_nonneg (le_of_lt hs)
        omega
    · rw [reorgSearchLoop, specForkSearch, dif_neg hs, dif_neg hs]

theorem reorgSearchLoop_eq_spec (env : Env) (start : Int) (cm1 : Nat) :
    reorgSearchLoop env start cm1 = specForkSearch env start cm1 :=
  reorgSearchLoop_eq_spec_fuel env start.toNat start cm1 le_rfl

theorem reorgSearchLoop_bounds_fuel (env : Env) :
    ∀ (k : Nat) (start : Int) (cm1 : Nat) (B : Int), start.toNat ≤ k →
    0 ≤ start → start + (cm1 + 1) ≤ B →
    0 ≤ reorgSearchLoop env start cm1 ∧ reorgSearchLoop env start cm1 ≤ B := by
  intro k
  induction k with
  | zero =>
    intro start cm1 B hk h0 hB
    have hs : ¬ 0 < start := by omega
    rw [reorgSearchLoop, dif_neg hs]
    omega
  | succ k ihk =>
    intro start cm1 B hk h0 hB
    by_cases hs : 0 < start
    · rw [reorgSearchLoop, dif_pos hs]
      dsimp only
      have hn := diff_pos_le (fs_block_hashes env start (cm1 + 1))
        (daemon_block_hex_hashes env start (cm1 + 1))
      have hlen : (fs_block_hashes env start (cm1 + 1)).length = cm1 + 1 := by
        unfold fs_block_hashes
        rw [List.length_map, List.length_range]
      rw [hlen] at hn
      rw [hlen]
      split
      next hpos =>
        have hni : (diff_pos (fs_block_hashes env start (cm1 + 1))
            (daemon_block_hex_hashes env start (cm1 + 1)) (cm1 + 1) : Int) ≤
            ((cm1 + 1 : Nat) : Int) := by exact_mod_cast hn
        constructor
        · omega
        · omega
      next hpos =>
        have h1 : 1 ≤ min ((cm1 + 1) * 2) start.toNat := by
          have : 1 ≤ start.toNat := by omega
          omega
        have h2 := Int.toNat_of_nonneg (le_of_lt hs)
        have h3 : (min ((cm1 + 1) * 2) start.toNat : Nat) ≤ start.toNat :=
          min_le_right _ _
        refine ihk _ _ B ?_ ?_ ?_
        · omega
        · omega
        · have : ((min ((cm1 + 1) * 2) start.toNat - 1 : Nat) : Int) =
              ((min ((cm1 + 1) * 2) start.toNat : Nat) : Int) - 1 := by
            omega
          omega
    · rw [reorgSearchLoop, dif_neg hs]
      omega

theorem reorgSearchLoop_bounds (env : Env) (start : Int) (cm1 : Nat) (B : Int)
    (h0 : 0 ≤ start) (hB : start + (cm1 + 1) ≤ B) :
    0 ≤ reorgSearchLoop env start cm1 ∧ reorgSearchLoop env start cm1 ≤ B :=
  reorgSearchLoop_bounds_fuel env start.toNat start cm1 B le_rfl h0 hB

/-- Claim C7: for a real reorg (`count = None`) `reorg_hashes` runs the
doubling fork-point search from `height - 1` with an initial window of
one block — `specForkSearch` restates that search from the claim,
using the agreeing-prefix length in place of `diff_pos` — and returns
a fork start in `[0, height]` together with exactly the local hashes
from the fork start up to `height`, of length `height - start + 1`. -/
theorem C7_reorg_hashes_real {env : Env} {height : Nat} (h1 : 1 ≤ height) :
    (reorg_hashes env height none).1 = specForkSearch env ((height : Int) - 1) 0 ∧
    0 ≤ (reorg_hashes env height none).1 ∧
    (reorg_hashes env height none).1 ≤ (height : Int) ∧
    (reorg_hashes env height none).2 =
      fs_block_hashes env (reorg_hashes env height none).1
        ((height : Int) - (reorg_hashes env height none).1 + 1).toNat ∧
    (reorg_hashes env height none).2.length =
      ((height : Int) - (reorg_hashes env height none).1 + 1).toNat := by
  have hb := reorgSearchLoop_bounds env ((height : Int) - 1) 0 height
    (by omega) (by omega)
  refine ⟨reorgSearchLoop_eq_spec env _ _, hb.1, hb.2, rfl, ?_⟩
  show (fs_block_hashes env _ _).length = _
  unfold fs_block_hashes
  rw [List.length_map, List.length_range]
  rfl

/-- Witness for claim C7 at the concrete five-block chain reorged at
height 3. -/
theorem C7_reorg_hashes_real_witness :
    (reorg_hashes c8Env 5 none).1 = specForkSearch c8Env ((5 : Int) - 1) 0 ∧
    0 ≤ (reorg_hashes c8Env 5 none).1 ∧
    (reorg_hashes c8Env 5 none).1 ≤ (5 : Int) ∧
    (reorg_hashes c8Env 5 none).2 =
      fs_block_hashes c8Env (reorg_hashes c8Env 5 none).1
        ((5 : Int) - (reorg_hashes c8Env 5 none).1 + 1).toNat ∧
    (reorg_hashes c8Env 5 none).2.length =
      ((5 : Int) - (reorg_hashes c8Env 5 none).1 + 1).toNat :=
  @C7_reorg_hashes_real c8Env 5 (by norm_num)

/-! ## Claim C8: reorg chunking reads the wrong heights for a real reorg -/

/-- Claim C8 (code-bug evidence). On the concrete five-block chain with
the fork at height 3, a real reorg (`count = None`) produces one chunk
carrying the hashes of heights 5, 4, 3 — but hands `get_raw_blocks`
`last = start = 3`, so the local raw-block archive is read at heights
3, 2, 1 instead of 5, 4, 3. The simulated reorg (`count = 3`) of the
same blocks computes `last = start + count - 1 = 5` and reads the
correct heights, showing the `None` case's `last = start` is the slip:
`reorg_hashes` computes the true span internally but does not return
it. -/
theorem C8_reorg_chunk_heights_bug :
    reorgChunkPlan c8Env 5 none = [(3, [[105], [104], [103]])] ∧
    reorgChunkPlan c8Env 5 (some 3) = [(5, [[105], [104], [103]])] ∧
    [[105], [104], [103]] =
      [c8Env.localChain 5, c8Env.localChain 4, c8Env.localChain 3] ∧
    getRawBlocksHeights 3 3 = [3, 2, 1] ∧
    getRawBlocksHeights 3 3 ≠ [5, 4, 3] := by
  have hloop : reorgSearchLoop c8Env ((5 : Int) - 1) 0 = 3 := by
    rw [reorgSearchLoop]
    norm_num [fs_block_hashes, daemon_block_hex_hashes, diff_pos, diffPosGo, c8Env, c1Env]
    rw [reorgSearchLoop]
    norm_num [fs_block_hashes, daemon_block_hex_hashes, diff_pos, diffPosGo, c8Env, c1Env]
  refine ⟨?_, ?_, by decide, by decide, by decide⟩
  · unfold reorgChunkPlan reorg_hashes
    rw [show ((5 : Nat) : Int) - 1 = (5 : Int) - 1 from by norm_num]
    rw [hloop]
    norm_num [fs_block_hashes, c8Env, c1Env]
    rw [listChunks.eq_def]
    norm_num [reorgChunkPlanGo]
    refine ⟨by decide, ?_⟩
    rw [listChunks.eq_def]
    norm_num [reorgChunkPlanGo]
  · unfold reorgChunkPlan reorg_hashes
    norm_num [fs_block_hashes, c8Env, c1Env]
    rw [listChunks.eq_def]
    norm_num [reorgChunkPlanGo]
    refine ⟨by decide, ?_⟩
    rw [listChunks.eq_def]
    norm_num [reorgChunkPlanGo]

end ElectrumX
